import Mathlib

/-!
Verification of the Korte-Hoffmann logo taxonomy engine.

This file shallowly embeds the classification / validation / grouping /
manifest pipeline of `Logo/github-linkfetch.py` and the token parser and
filename synthesizer of `Logo/sort-logos.py`, and proves (or refutes)
the specification claims about them.

Python strings are modelled as `List Char`; Python `dict`s (which are
insertion-ordered) are modelled as association lists with
insert-or-overwrite-in-place update (`aset`) and append-if-absent
(`asetdefault`), mirroring CPython dict semantics.  Python's stable
`sorted` is modelled by Mathlib's `List.insertionSort`, which is stable
for the `≤`-shaped relations used here.  `str.lower` is modelled with
`Char.toLower` (all filenames handled by the claims are ASCII).
-/

set_option maxHeartbeats 1000000
set_option maxRecDepth 4000

abbrev Str := List Char

/-- Convenience: string literal to `List Char`. -/
def sl (s : String) : Str := s.toList

/-- Python `s.lower()` (ASCII fragment). -/
def lcL (s : Str) : Str := s.map Char.toLower

/-- Python `s.replace('kh-', '')`: one left-to-right pass removing each
non-overlapping occurrence of `kh-`.  (Note: not idempotent — removing an
occurrence can create a new one.) -/
def stripKH : Str → Str
  | [] => []
  | [c] => [c]
  | [c, d] => [c, d]
  | c :: d :: e :: rest =>
    if c = 'k' ∧ d = 'h' ∧ e = '-' then stripKH rest
    else c :: stripKH (d :: e :: rest)

/-- Python `s.split('_')` (keeps empty fields; `''.split('_') == ['']`). -/
def splitU : Str → List Str
  | [] => [[]]
  | c :: t =>
    match splitU t with
    | h :: r => if c = '_' then [] :: h :: r else (c :: h) :: r
    | [] => [[c]]

/-- Python `'_'.join(parts)`. -/
def joinU : List Str → Str
  | [] => []
  | [p] => p
  | p :: ps => p ++ '_' :: joinU ps

/-- Python `s.strip('_')`. -/
def stripUnd (s : Str) : Str :=
  ((s.dropWhile (· = '_')).reverse.dropWhile (· = '_')).reverse

/-- Python `sub in s` (substring test). -/
def hasSub (sub s : Str) : Bool := decide (sub <:+: s)

/-- The basename of a locator: everything after the last `/`. -/
def afterLastSlash (s : Str) : Str := (s.reverse.takeWhile (· ≠ '/')).reverse

/-- `os.path.splitext(url)[1]`: the extension (with dot) of the last path
component; leading dots of the basename are not extension separators. -/
def extOf (url : Str) : Str :=
  let b := afterLastSlash url
  let core := b.dropWhile (· = '.')
  let r := core.reverse
  if r.contains '.' then '.' :: (r.takeWhile (· ≠ '.')).reverse else []

/-- Python `s.strip('.')`. -/
def stripDots (s : Str) : Str :=
  ((s.dropWhile (· = '.')).reverse.dropWhile (· = '.')).reverse

/-- An attribute value: Python `str` or `bool`. -/
inductive Val
  | strV (s : Str)
  | boolV (b : Bool)
deriving DecidableEq, Repr

/-- Python `f"{v}"` / `str(v)`. -/
def strForm : Val → Str
  | .strV s => s
  | .boolV true => sl "True"
  | .boolV false => sl "False"

/-- Python truthiness of a value (`if mode:`). -/
def valTruthy : Val → Bool
  | .strV s => s ≠ []
  | .boolV b => b

abbrev RV := List (Str × Val)

/-- Association-list lookup (Python `d.get(k)` / `k in d`). -/
def alookup (g : Str) : RV → Option Val
  | [] => none
  | (k, v) :: t => if k = g then some v else alookup g t

/-- Python `d[k] = v`: overwrite in place if present, else append. -/
def aset (g : Str) (v : Val) : RV → RV
  | [] => [(g, v)]
  | (k, w) :: t => if k = g then (k, v) :: t else (k, w) :: aset g v t

/-- Python `d.setdefault(k, v)`. -/
def asetdefault (g : Str) (v : Val) (m : RV) : RV :=
  if (alookup g m).isSome then m else m ++ [(g, v)]

/-! ## Static tables of `github-linkfetch.py` -/

/-- `BRAND_CANON` (top-level brand ZIP names, original case). -/
def brandCanonL : List Str :=
  [sl "KH-Architekten+Ingenieure", sl "KH-Gebaeudedruck", sl "KH-Gruppe",
   sl "KH-Immobilien", sl "KORTE-HOFFMANN"]

/-- `ASSET_TYPE_KEYS`: key ↦ (display name, type). -/
def assetTypeKeysL : List (Str × Str × Str) :=
  [(sl "architekten+ingenieure", sl "Architekten+Ingenieure", sl "standard_logo"),
   (sl "gebaeudedruck", sl "Gebäudedruck", sl "standard_logo"),
   (sl "gruppe", sl "Gruppe", sl "standard_logo"),
   (sl "immobilien", sl "Immobilien", sl "standard_logo"),
   (sl "korte-hoffmann", sl "Korte-Hoffmann", sl "korte_hoffmann_logotype"),
   (sl "dreihaus", sl "Dreihaus", sl "dreihaus_logo"),
   (sl "favicon", sl "Favicon", sl "favicon"),
   (sl "monogram", sl "Monogram", sl "monogram")]

def lookupAssetKey (k : Str) : Option (Str × Str) :=
  (assetTypeKeysL.find? (fun e => e.1 = k)).map (·.2)

/-- `ASSET_TYPE_KEYS[k]['type']` (total here; the dummy default is
unreachable because the callers only pass existing keys). -/
def typeOfAssetKey (k : Str) : Str := ((lookupAssetKey k).getD ([], [])).2

/-- One `VARIANT_PART_DEFINITIONS` entry: group, optional value
(Python `definition.get('value', part)` defaults to the token itself),
optional display name (absent for `rgb` / `cmyk`). -/
structure VDef where
  group : Str
  value : Option Val
  dname : Option Str
deriving DecidableEq, Repr

/-- `VARIANT_PART_DEFINITIONS`. -/
def variantPartDefs : List (Str × VDef) :=
  [(sl "size-xxs", ⟨sl "optical_size", some (.strV (sl "xxs")), some (sl "Extra Extra Small")⟩),
   (sl "size-m",   ⟨sl "optical_size", some (.strV (sl "m")), some (sl "Medium")⟩),
   (sl "size-xxl", ⟨sl "optical_size", some (.strV (sl "xxl")), some (sl "Extra Extra Large")⟩),
   (sl "size-s",   ⟨sl "optical_size", some (.strV (sl "xxs")), some (sl "Small (Legacy)")⟩),
   (sl "size-l",   ⟨sl "optical_size", some (.strV (sl "xxl")), some (sl "Large (Legacy)")⟩),
   (sl "black", ⟨sl "color", none, some (sl "Black")⟩),
   (sl "white", ⟨sl "color", none, some (sl "White")⟩),
   (sl "black+accent", ⟨sl "color", none, some (sl "Black+Accent")⟩),
   (sl "white+accent", ⟨sl "color", none, some (sl "White+Accent")⟩),
   (sl "center", ⟨sl "lockup", none, some (sl "Center")⟩),
   (sl "left", ⟨sl "lockup", none, some (sl "Left")⟩),
   (sl "right", ⟨sl "lockup", none, some (sl "Right")⟩),
   (sl "center-compact", ⟨sl "lockup", none, some (sl "Center-Compact")⟩),
   (sl "bar", ⟨sl "bar", some (.boolV true), some (sl "Bar")⟩),
   (sl "no-bar", ⟨sl "bar", some (.boolV false), some (sl "No Bar")⟩),
   (sl "compact", ⟨sl "compact", some (.boolV true), some (sl "Compact")⟩),
   (sl "no-compact", ⟨sl "compact", some (.boolV false), some (sl "No Compact")⟩),
   (sl "trademark", ⟨sl "trademark", some (.boolV true), some (sl "With ®")⟩),
   (sl "no-trademark", ⟨sl "trademark", some (.boolV false), some (sl "Without ®")⟩),
   (sl "clearspace", ⟨sl "clearspace", some (.boolV true), some (sl "With Clearspace")⟩),
   (sl "no-clearspace", ⟨sl "clearspace", some (.boolV false), some (sl "Without Clearspace")⟩),
   (sl "rgb", ⟨sl "modifier", none, none⟩),
   (sl "cmyk", ⟨sl "modifier", none, none⟩)]

def lookupVPD (p : Str) : Option VDef :=
  (variantPartDefs.find? (fun e => e.1 = p)).map (·.2)

/-- `REQUIRED_BY_ASSET_TYPE` (Python sets, listed here alphabetically,
matching `sorted(list(missing))` in the rejection message). -/
def requiredOf (t : Str) : List Str :=
  if t = sl "standard_logo" then [sl "color", sl "division", sl "lockup", sl "optical_size"]
  else if t = sl "korte_hoffmann_logotype" then
    [sl "color", sl "compact", sl "division", sl "optical_size"]
  else if t = sl "dreihaus_logo" then [sl "color", sl "optical_size"]
  else if t = sl "monogram" then [sl "color"]
  else if t = sl "favicon" then [sl "color"]
  else []

/-! ## Brand detection (`parse_and_validate_files`, step 1) -/

/-- The `sorted(..., key=len, reverse=True)` comparison. -/
def lenDesc (a b : Str) : Prop := b.length ≤ a.length

instance : DecidableRel lenDesc := fun a b => Nat.decLe _ _

/-- Keys of `ASSET_TYPE_KEYS` without the pure special keywords, in dict
order (the input of the `sorted` call). -/
def brandKeysBase : List Str :=
  [sl "architekten+ingenieure", sl "gebaeudedruck", sl "gruppe", sl "immobilien",
   sl "korte-hoffmann", sl "dreihaus"]

/-- `sorted(keys, key=len, reverse=True)` (stable). -/
def sortKeysDesc (ks : List Str) : List Str := List.insertionSort lenDesc ks

def sortedBrandKeys : List Str := sortKeysDesc brandKeysBase

/-- First key in the (length-descending) list that prefixes the stem. -/
def firstPrefixMatch (ks : List Str) (s : Str) : Option Str :=
  ks.find? (fun k => k.isPrefixOf s)

def detectBrandKey (parts : Str) : Option Str := firstPrefixMatch sortedBrandKeys parts

/-! ## Classifier (`parse_and_validate_files`, steps 2–5) -/

/-- Step 2 first half: `'favicon' in parts_str` / `'monogram' in parts_str`. -/
def hintOf (parts : Str) : Option Str :=
  if hasSub (sl "favicon") parts then some (sl "favicon")
  else if hasSub (sl "monogram") parts then some (sl "monogram")
  else none

/-- Step 2 second half: the asset type, `none` = "Could not identify a
known brand or asset type." -/
def assetTypeOf (hint brandKey : Option Str) : Option Str :=
  match hint with
  | some h => some (typeOfAssetKey h)
  | none =>
    match brandKey with
    | some bk =>
      if bk = sl "korte-hoffmann" then some (sl "korte_hoffmann_logotype")
      else if bk = sl "dreihaus" then some (sl "dreihaus_logo")
      else if bk ∈ [sl "architekten+ingenieure", sl "gebaeudedruck", sl "gruppe",
                    sl "immobilien"] then some (sl "standard_logo")
      else none
    | none => none

/-- The `division` assignment after the asset-type decision. -/
def mkDivision (assetType : Str) (hint brandKey : Option Str) (rv : RV) : RV :=
  match brandKey with
  | some bk =>
    if assetType = sl "standard_logo" ∨ assetType = sl "korte_hoffmann_logotype" then
      aset (sl "division") (.strV bk) rv
    else
      match hint with
      | some h =>
        if (h = sl "favicon" ∨ h = sl "monogram") ∧ bk ≠ h then
          aset (sl "division") (.strV bk) rv
        else rv
      | none => rv
  | none => rv

/-- Step 3 loop body: one token.  State: (raw_variants, unmatched). -/
def procPart (assetType : Str) (st : RV × List Str) (part : Str) : RV × List Str :=
  if part = [] then st
  else if part = sl "compact" ∧ assetType = sl "standard_logo" then
    (aset (sl "lockup") (.strV (sl "center-compact")) st.1, st.2)
  else if part = sl "no-compact" ∧ assetType = sl "standard_logo" then
    (aset (sl "lockup") (.strV (sl "center")) st.1, st.2)
  else
    match lookupVPD part with
    | some d =>
      if d.group = sl "compact" ∧ assetType ≠ sl "korte_hoffmann_logotype" then st
      else (aset d.group (d.value.getD (.strV part)) st.1, st.2)
    | none =>
      if (lookupAssetKey part).isSome then st else (st.1, st.2 ++ [part])

/-- Step 4: boolean defaults per asset type (`setdefault` order preserved). -/
def applyDefaultsLF (assetType : Str) (rv : RV) : RV :=
  if assetType = sl "standard_logo" then
    asetdefault (sl "clearspace") (.boolV false)
      (asetdefault (sl "trademark") (.boolV false)
        (asetdefault (sl "bar") (.boolV false) rv))
  else if assetType = sl "korte_hoffmann_logotype" then
    asetdefault (sl "clearspace") (.boolV false)
      (asetdefault (sl "trademark") (.boolV false)
        (asetdefault (sl "compact") (.boolV false) rv))
  else if assetType = sl "dreihaus_logo" then
    asetdefault (sl "clearspace") (.boolV false)
      (asetdefault (sl "trademark") (.boolV false) rv)
  else rv

/-- Full per-file pipeline result, before the accept/reject decision. -/
inductive CFull
  | zipIgnored
  | unknownBrand
  | validated (assetType : Str) (rv : RV) (missing unmatched : List Str)
deriving DecidableEq, Repr

/-- Step 3 preamble: `parts_str[len(brand_key):].strip('_')` split on `_`
(`remaining_str.split('_') if remaining_str else []`). -/
def remainingPartsOf (partsStr : Str) : List Str :=
  let remainingStr :=
    match detectBrandKey partsStr with
    | some bk => stripUnd (partsStr.drop bk.length)
    | none => partsStr
  if remainingStr = [] then [] else splitU remainingStr

/-- Steps 2b–3: `raw_variants` and `unmatched` after the token loop. -/
def stateOf (assetType : Str) (partsStr : Str) : RV × List Str :=
  (remainingPartsOf partsStr).foldl (procPart assetType)
    (mkDivision assetType (hintOf partsStr) (detectBrandKey partsStr)
      [(sl "asset_type", .strV assetType)], [])

/-- Step 4 applied: the final `raw_variants`. -/
def rvFinal (assetType : Str) (partsStr : Str) : RV :=
  applyDefaultsLF assetType (stateOf assetType partsStr).1

/-- Step 5: `sorted(list(required - set(raw_variants.keys())))`. -/
def missingOf (assetType : Str) (partsStr : Str) : List Str :=
  (requiredOf assetType).filter (fun g => (alookup g (rvFinal assetType partsStr)).isNone)

/-- Step 5 guardrail: `unmatched` (plus `no-lockup` for standard logos). -/
def unmatchedOf (assetType : Str) (partsStr : Str) : List Str :=
  if assetType = sl "standard_logo" ∧ (sl "no-lockup") ∈ remainingPartsOf partsStr then
    (stateOf assetType partsStr).2 ++ [sl "no-lockup"]
  else (stateOf assetType partsStr).2

/-- Everything `parse_and_validate_files` does after the `BRAND_CANON`
check, as a function of `parts_str`. -/
def classifyRest (partsStr : Str) : CFull :=
  match assetTypeOf (hintOf partsStr) (detectBrandKey partsStr) with
  | none => .unknownBrand
  | some assetType =>
    .validated assetType (rvFinal assetType partsStr)
      (missingOf assetType partsStr) (unmatchedOf assetType partsStr)

/-- `parse_and_validate_files` for one filename stem, stopping before the
accept/reject decision. -/
def classifyFull (filename : Str) : CFull :=
  if filename ∈ brandCanonL then .zipIgnored
  else classifyRest (stripKH (lcL filename))

/-- Final per-file outcome.  `rejected` carries the sorted missing-group
list and the unmatched-token list (both reasons, concatenated). -/
inductive CRes
  | zipIgnored
  | unknownBrand
  | rejected (missing unmatched : List Str)
  | accepted (rv : RV)
deriving DecidableEq, Repr

/-- `parse_and_validate_files` for one filename stem. -/
def classify (filename : Str) : CRes :=
  match classifyFull filename with
  | .zipIgnored => .zipIgnored
  | .unknownBrand => .unknownBrand
  | .validated _ rv missing unmatched =>
    if missing = [] ∧ unmatched = [] then .accepted rv
    else .rejected missing unmatched

/-! ## Variant grouping (`group_and_finalize_logos`) -/

/-- One accepted file record (`{"url": ..., "raw_variants": ...}`). -/
structure PFile where
  url : Str
  rv : RV
deriving DecidableEq, Repr

/-- Group-name comparison used by `tuple(sorted(variant_items))`.
Python compares the `(group, value)` tuples; since `raw_variants` keys are
distinct, only the group strings are ever compared, so a stable sort on
the group name is extensionally the same. -/
def pairLe (a b : Str × Val) : Prop := a.1 ≤ b.1

instance : DecidableRel pairLe := fun a b => inferInstanceAs (Decidable (a.1 ≤ b.1))

/-- `tuple(sorted((k, v) for k, v in rv.items() if k != "modifier"))`. -/
def variantKey (rv : RV) : RV :=
  List.insertionSort pairLe (rv.filter (fun p => p.1 ≠ sl "modifier"))

/-- The slot key: extension (lowercased, dots stripped), `all-formats`
for ZIPs, compounded with the color-mode modifier when present/truthy. -/
def formatKey (f : PFile) : Str :=
  let fileExt := extOf f.url
  let extKey := stripDots (lcL fileExt)
  if lcL fileExt = sl ".zip" then sl "all-formats"
  else
    match alookup (sl "modifier") f.rv with
    | some m => if valTruthy m then extKey ++ '_' :: strForm m else extKey
    | none => extKey

/-- `links[format_key] = url` (dict assignment on the inner dict). -/
def lset (k v : Str) : List (Str × Str) → List (Str × Str)
  | [] => [(k, v)]
  | (k2, w) :: t => if k2 = k then (k2, v) :: t else (k2, w) :: lset k v t

/-- `grouped_logos[variant_key][format_key] = url` over a
`defaultdict(dict)`: a fresh variant key is appended, an existing slot is
silently overwritten in place. -/
def gset (k : RV) (fk u : Str) : List (RV × List (Str × Str)) → List (RV × List (Str × Str))
  | [] => [(k, [(fk, u)])]
  | (k2, links) :: t => if k2 = k then (k2, lset fk u links) :: t else (k2, links) :: gset k fk u t

def groupStep (acc : List (RV × List (Str × Str))) (f : PFile) :
    List (RV × List (Str × Str)) :=
  gset (variantKey f.rv) (formatKey f) f.url acc

/-- A finalized logo object: the variant attributes plus the slot links. -/
structure Logo where
  attrs : RV
  links : List (Str × Str)
deriving DecidableEq, Repr

/-- The sort key of the final list:
`(x.get('asset_type', ''), x.get('division', ''))`. -/
def logoSortKey (lg : Logo) : Lex (Str × Str) :=
  toLex ((strForm ((alookup (sl "asset_type") lg.attrs).getD (.strV []))),
         (strForm ((alookup (sl "division") lg.attrs).getD (.strV []))))

def logoLe (a b : Logo) : Prop := logoSortKey a ≤ logoSortKey b

instance : DecidableRel logoLe := fun a b =>
  inferInstanceAs (Decidable (logoSortKey a ≤ logoSortKey b))

/-- `group_and_finalize_logos`. -/
def groupAndFinalize (files : List PFile) : List Logo :=
  let grouped := files.foldl groupStep []
  List.insertionSort logoLe (grouped.map (fun p => ⟨p.1, p.2⟩))

/-! ## Manifest (`create_manifest`) -/

/-- `discovered[group].add(value)` (`defaultdict(set)`; the set is modelled
as a first-seen-ordered duplicate-free list — only membership matters,
since the options are sorted by their string form afterwards). -/
def dadd (g : Str) (v : Val) : List (Str × List Val) → List (Str × List Val)
  | [] => [(g, [v])]
  | (k, vs) :: t =>
    if k = g then (k, if v ∈ vs then vs else vs ++ [v]) :: t else (k, vs) :: dadd g v t

def discStep (acc : List (Str × List Val)) (f : PFile) : List (Str × List Val) :=
  f.rv.foldl (fun a p => if p.1 = sl "modifier" then a else dadd p.1 p.2 a) acc

/-- The value-discovery loop of `create_manifest`. -/
def discover (files : List PFile) : List (Str × List Val) := files.foldl discStep []

/-- Membership in the discovery structure: value `v` is recorded for
group `g` (analysis companion of `discover`). -/
def inDisc (g : Str) (v : Val) (acc : List (Str × List Val)) : Prop :=
  ∃ pr ∈ acc, pr.1 = g ∧ v ∈ pr.2

/-- The `all_defs[k] = {"group": ..., "name": v['name']}` entries derived
from `ASSET_TYPE_KEYS` (no `value` field: lookups default to the key). -/
def assetDefEntries : List (Str × VDef) :=
  assetTypeKeysL.map (fun e =>
    (e.1, ⟨if e.2.2 = sl "standard_logo" ∨ e.2.2 = sl "korte_hoffmann_logotype" then
             sl "division" else sl "asset_type", none, some e.2.1⟩))

/-- `all_defs` in insertion order: variant part definitions, asset-type
keys, then the `setdefault` pseudo-entries for `False` booleans. -/
def allDefs : List (Str × VDef) :=
  variantPartDefs ++ assetDefEntries ++
  [(sl "__bar_false__", ⟨sl "bar", some (.boolV false), some (sl "No Bar")⟩),
   (sl "__tm_false__", ⟨sl "trademark", some (.boolV false), some (sl "Without ®")⟩),
   (sl "__cs_false__", ⟨sl "clearspace", some (.boolV false), some (sl "Without Clearspace")⟩),
   (sl "__khc_false__", ⟨sl "compact", some (.boolV false), some (sl "No Compact")⟩)]

/-- The display name of one option: the first `all_defs` entry whose group
matches and whose value (defaulting to the entry key) equals the option;
fallback is `str(option)`.  (The inner `getD` covers the name-less
`rgb`/`cmyk` entries, which are unreachable here because the `modifier`
group never reaches the manifest.) -/
def nameFor (g : Str) (v : Val) : Str :=
  match allDefs.find? (fun e => e.2.group = g ∧ e.2.value.getD (.strV e.1) = v) with
  | some e => (e.2.dname).getD (strForm v)
  | none => strForm v

/-- Python `str.title()` (ASCII fragment). -/
def pyTitleAux : Bool → Str → Str
  | _, [] => []
  | prevAlpha, c :: t =>
    (if c.isAlpha then (if prevAlpha then c.toLower else c.toUpper) else c) ::
      pyTitleAux c.isAlpha t

def pyTitle (s : Str) : Str := pyTitleAux false s

/-- One manifest group: `{"name": group.replace('_',' ').title(), "options": ...}`. -/
structure MEntry where
  mname : Str
  options : List (Val × Str)
deriving DecidableEq, Repr

/-- `sorted(list(options), key=lambda x: str(x))` comparison. -/
def strFormLe (x y : Val) : Prop := strForm x ≤ strForm y

instance : DecidableRel strFormLe := fun x y =>
  inferInstanceAs (Decidable (strForm x ≤ strForm y))

/-- `sorted(discovered.items())` comparison (group names are distinct, so
only the first tuple components are ever compared). -/
def gpLe (a b : Str × List Val) : Prop := a.1 ≤ b.1

instance : DecidableRel gpLe := fun a b => inferInstanceAs (Decidable (a.1 ≤ b.1))

/-- `create_manifest`. -/
def manifestOf (files : List PFile) : List (Str × MEntry) :=
  ((List.insertionSort gpLe (discover files)).filter (fun p => p.1 ≠ sl "modifier")).map
    (fun p =>
      (p.1, ⟨pyTitle (p.1.map (fun c => if c = '_' then ' ' else c)),
             (List.insertionSort strFormLe p.2).map (fun v => (v, nameFor p.1 v))⟩))

/-! ## `sort-logos.py`: token parser, defaults, filename synthesizer -/

def lockupCanon : List Str := [sl "left", sl "right", sl "center", sl "center-compact"]

def sizeCanon : List Str := [sl "xxl", sl "m", sl "xxs"]

def colorCanon : List Str := [sl "white", sl "black", sl "white+accent", sl "black+accent"]

def divisionsWithLockups : List Str :=
  [sl "KH-Architekten+Ingenieure", sl "KH-Gebaeudedruck", sl "KH-Immobilien", sl "KH-Gruppe"]

/-- The result record of `parse_tokens_full`. -/
structure Tokens where
  slug : Str
  lockup : Option Str
  bar : Option Bool
  size : Option Str
  trademark : Option Bool
  clearspace : Option Bool
  color : Option Str
  mode : Option Str
  khCompact : Option Bool
  legacyCompact : Bool
  legacyNoCompact : Bool
  dreihaus : Bool
deriving DecidableEq, Repr

/-- `parse_tokens_full` (the token set is `set(parts[1:])`; only
membership is ever used, so the list of parts after the slug stands in
for it). -/
def parseTokensFull (n : Str) : Tokens :=
  let parts := splitU n
  let slug := parts.headD n
  let tokens := parts.tail
  { slug := slug
    lockup := lockupCanon.find? (fun lu => decide (lu ∈ tokens))
    bar :=
      if (sl "bar") ∈ tokens ∧ (sl "no-bar") ∉ tokens then some true
      else if (sl "no-bar") ∈ tokens then some false
      else none
    size := (parts.find? (fun p =>
      (sl "size-").isPrefixOf p && decide (p.drop 5 ∈ sizeCanon))).map (·.drop 5)
    trademark :=
      if (sl "trademark") ∈ tokens ∧ (sl "no-trademark") ∉ tokens then some true
      else if (sl "no-trademark") ∈ tokens then some false
      else none
    clearspace :=
      if (sl "clearspace") ∈ tokens ∧ (sl "no-clearspace") ∉ tokens then some true
      else if (sl "no-clearspace") ∈ tokens then some false
      else none
    color := colorCanon.find? (fun c => decide (c ∈ tokens))
    mode :=
      if (sl "rgb") ∈ tokens then some (sl "rgb")
      else if (sl "cmyk") ∈ tokens then some (sl "cmyk")
      else none
    khCompact :=
      if (sl "compact") ∈ tokens ∧ (sl "no-compact") ∉ tokens then some true
      else if (sl "no-compact") ∈ tokens then some false
      else none
    legacyCompact := decide ((sl "compact") ∈ tokens)
    legacyNoCompact := decide ((sl "no-compact") ∈ tokens)
    dreihaus := hasSub (sl "dreihaus") n }

/-- Python `x or default` for an optional string (`None` and `""` are
falsy). -/
def pyOrS (o : Option Str) (d : Str) : Str :=
  match o with
  | some s => if s = [] then d else s
  | none => d

/-- `lockup if lockup in LOCKUP_CANON else "center"` (`None` is not in
the canon, hence also yields `center`). -/
def lockupTok (t : Tokens) : Str :=
  match t.lockup with
  | some lu => if lu ∈ lockupCanon then lu else sl "center"
  | none => sl "center"

/-- The lockup/bar (resp. compact) section of the synthesized name. -/
def buildMid (brand : Str) (t : Tokens) : List Str :=
  if brand ∈ divisionsWithLockups ∧ ¬t.dreihaus then
    [lockupTok t] ++ (if t.bar = some true then [sl "bar"] else [])
  else if brand = sl "KORTE-HOFFMANN" then
    (if t.khCompact = some true then [sl "compact"] else [])
  else []

/-- The `parts` list assembled by `build_new_filename`. -/
def buildParts (brand : Str) (t : Tokens) : List Str :=
  [t.slug] ++ buildMid brand t ++
  [pyOrS t.color (sl "black"), sl "size-" ++ pyOrS t.size (sl "m")] ++
  (if t.trademark = some true then [sl "trademark"] else []) ++
  (if t.clearspace = some true then [sl "clearspace"] else []) ++
  [pyOrS t.mode (sl "rgb")]

/-- `build_new_filename`. -/
def buildNewFilename (brand : Str) (t : Tokens) : Str := joinU (buildParts brand t)

/-- The legacy-compact lockup mapping and boolean/size defaulting applied
by `sort_from_dot_sort` (and `crawl_and_zip`) right after parsing. -/
def applyDefaultsSL (brand : Str) (t : Tokens) : Tokens :=
  let t1 :=
    if brand ∈ divisionsWithLockups ∧ ¬t.dreihaus ∧ t.lockup = none then
      (if t.legacyCompact then { t with lockup := some (sl "center-compact") }
       else if t.legacyNoCompact then { t with lockup := some (sl "center") }
       else t)
    else t
  { t1 with
    size := some (t1.size.getD (sl "m"))
    trademark := some (t1.trademark.getD false)
    clearspace := some (t1.clearspace.getD false)
    bar := some (t1.bar.getD false)
    khCompact :=
      if t1.khCompact = none ∧ brand = sl "KORTE-HOFFMANN" then some false
      else t1.khCompact }

/-- Which `(group, value)` pair the token loop writes for one token, if
any (analysis companion of `procPart`). -/
def setsGroup (assetType : Str) (part : Str) : Option (Str × Val) :=
  if part = [] then none
  else if part = sl "compact" ∧ assetType = sl "standard_logo" then
    some (sl "lockup", .strV (sl "center-compact"))
  else if part = sl "no-compact" ∧ assetType = sl "standard_logo" then
    some (sl "lockup", .strV (sl "center"))
  else
    match lookupVPD part with
    | some d =>
      if d.group = sl "compact" ∧ assetType ≠ sl "korte_hoffmann_logotype" then none
      else some (d.group, d.value.getD (.strV part))
    | none => none

/-! ## Support lemmas -/

theorem alookup_aset_self (g : Str) (v : Val) (m : RV) :
    alookup g (aset g v m) = some v := by
  induction m with
  | nil => simp [aset, alookup]
  | cons p t ih =>
    obtain ⟨k, w⟩ := p
    by_cases h : k = g
    · simp [aset, alookup, h]
    · simp [aset, alookup, h, ih]

theorem alookup_aset_ne (g g2 : Str) (v : Val) (m : RV) (h : g2 ≠ g) :
    alookup g (aset g2 v m) = alookup g m := by
  induction m with
  | nil =>
    simp only [aset, alookup]
    rw [if_neg h]
  | cons p t ih =>
    obtain ⟨k, w⟩ := p
    simp only [aset]
    by_cases hk : k = g2
    · rw [if_pos hk]
      simp only [alookup]
      have hkg : ¬k = g := fun e => h (hk ▸ e)
      rw [if_neg hkg, if_neg hkg]
    · rw [if_neg hk]
      simp only [alookup]
      by_cases hkg : k = g
      · rw [if_pos hkg, if_pos hkg]
      · rw [if_neg hkg, if_neg hkg, ih]

theorem procPart_fst (t : Str) (st : RV × List Str) (p : Str) :
    (procPart t st p).1 =
      match setsGroup t p with
      | some gv => aset gv.1 gv.2 st.1
      | none => st.1 := by
  unfold procPart setsGroup
  by_cases h1 : p = []
  · rw [if_pos h1, if_pos h1]
  · rw [if_neg h1, if_neg h1]
    by_cases h2 : p = sl "compact" ∧ t = sl "standard_logo"
    · rw [if_pos h2, if_pos h2]
    · rw [if_neg h2, if_neg h2]
      by_cases h3 : p = sl "no-compact" ∧ t = sl "standard_logo"
      · rw [if_pos h3, if_pos h3]
      · rw [if_neg h3, if_neg h3]
        cases hv : lookupVPD p with
        | none =>
          simp only []
          by_cases h4 : (lookupAssetKey p).isSome
          · rw [if_pos h4]
          · rw [if_neg h4]
        | some d =>
          simp only []
          by_cases h5 : d.group = sl "compact" ∧ t ≠ sl "korte_hoffmann_logotype"
          · rw [if_pos h5, if_pos h5]
          · rw [if_neg h5, if_neg h5]

theorem alookup_foldl_no_set (t g : Str) :
    ∀ (parts : List Str) (st : RV × List Str),
      (∀ p ∈ parts, ∀ v, setsGroup t p ≠ some (g, v)) →
      alookup g (parts.foldl (procPart t) st).1 = alookup g st.1 := by
  intro parts
  induction parts with
  | nil => intro st _; rfl
  | cons p ps ih =>
    intro st h
    rw [List.foldl_cons, ih _ (fun q hq v => h q (List.mem_cons_of_mem p hq) v)]
    rw [procPart_fst]
    cases hh : setsGroup t p with
    | none => rfl
    | some gv =>
      obtain ⟨g2, v⟩ := gv
      have hne : g2 ≠ g := fun e =>
        h p (List.mem_cons_self p ps) v (by rw [hh, e])
      exact alookup_aset_ne g g2 v st.1 hne

theorem foldl_last_set_wins (t g : Str) (v : Val) (p : Str)
    (l1 l2 : List Str) (st : RV × List Str)
    (hset : setsGroup t p = some (g, v))
    (hafter : ∀ q ∈ l2, ∀ w, setsGroup t q ≠ some (g, w)) :
    alookup g ((l1 ++ p :: l2).foldl (procPart t) st).1 = some v := by
  rw [List.foldl_append, List.foldl_cons,
      alookup_foldl_no_set t g l2 _ hafter, procPart_fst, hset]
  exact alookup_aset_self g v _

theorem eq_of_perm_of_sorted_key {α κ : Type} [LinearOrder κ] (f : α → κ) :
    ∀ (l1 l2 : List α), l1.Perm l2 →
      l1.Pairwise (fun a b => f a ≠ f b) →
      l1.Pairwise (fun a b => f a ≤ f b) →
      l2.Pairwise (fun a b => f a ≤ f b) → l1 = l2 := by
  intro l1
  induction l1 with
  | nil =>
    intro l2 hp _ _ _
    exact hp.nil_eq
  | cons a t1 ih =>
    intro l2 hp hne hs1 hs2
    cases l2 with
    | nil => exact absurd hp.eq_nil (by simp)
    | cons b t2 =>
      have hab : a = b := by
        by_contra hcon
        have ha2 : a ∈ t2 :=
          (List.mem_cons.mp (hp.mem_iff.mp (List.mem_cons_self a t1))).resolve_left hcon
        have hb1 : b ∈ t1 :=
          (List.mem_cons.mp (hp.mem_iff.mpr (List.mem_cons_self b t2))).resolve_left
            (fun e => hcon e.symm)
        have h1 : f a ≤ f b := (List.pairwise_cons.mp hs1).1 b hb1
        have h2 : f b ≤ f a := (List.pairwise_cons.mp hs2).1 a ha2
        exact (List.pairwise_cons.mp hne).1 b hb1 (le_antisymm h1 h2)
      subst hab
      rw [ih t2 hp.cons_inv (List.pairwise_cons.mp hne).2
            (List.pairwise_cons.mp hs1).2 (List.pairwise_cons.mp hs2).2]

theorem fpm_longest (s k1 : Str) :
    ∀ (L : List Str), List.Pairwise lenDesc L →
      ∀ k2, k2 ∈ L → k2 <+: s → k1.length < k2.length →
      ∃ k, firstPrefixMatch L s = some k ∧
        k2.length ≤ k.length ∧ k <+: s ∧ k ≠ k1 := by
  intro L
  induction L with
  | nil => intro _ k2 h; exact absurd h (List.not_mem_nil k2)
  | cons h0 t ih =>
    intro hpw k2 hk2 hpre hlen
    by_cases hp : h0.isPrefixOf s
    · have hbound : k2.length ≤ h0.length := by
        rcases List.mem_cons.mp hk2 with rfl | hmem
        · exact le_refl _
        · exact (List.pairwise_cons.mp hpw).1 k2 hmem
      refine ⟨h0, ?_, hbound, List.isPrefixOf_iff_prefix.mp hp, ?_⟩
      · simp [firstPrefixMatch, List.find?_cons, hp]
      · intro e
        rw [e] at hbound
        omega
    · have hne : k2 ≠ h0 := fun e => by
        subst e
        exact hp (List.isPrefixOf_iff_prefix.mpr hpre)
      obtain ⟨k, hk, hl2, hkp, hkn⟩ :=
        ih (List.pairwise_cons.mp hpw).2 k2
          ((List.mem_cons.mp hk2).resolve_left hne) hpre hlen
      have hpb : h0.isPrefixOf s = false := by
        rw [Bool.not_eq_true] at hp
        exact hp
      refine ⟨k, ?_, hl2, hkp, hkn⟩
      simpa [firstPrefixMatch, List.find?_cons, hpb] using hk

theorem classifyFull_validated_inv {s t : Str} {rv : RV} {m u : List Str}
    (h : classifyFull s = .validated t rv m u) :
    s ∉ brandCanonL ∧
    assetTypeOf (hintOf (stripKH (lcL s))) (detectBrandKey (stripKH (lcL s))) = some t ∧
    rv = rvFinal t (stripKH (lcL s)) ∧
    m = missingOf t (stripKH (lcL s)) ∧
    u = unmatchedOf t (stripKH (lcL s)) := by
  by_cases hmem : s ∈ brandCanonL
  · unfold classifyFull at h
    rw [if_pos hmem] at h
    exact absurd h (by simp)
  · unfold classifyFull at h
    rw [if_neg hmem] at h
    unfold classifyRest at h
    cases hA : assetTypeOf (hintOf (stripKH (lcL s))) (detectBrandKey (stripKH (lcL s))) with
    | none =>
      rw [hA] at h
      exact absurd h (by simp)
    | some t2 =>
      rw [hA] at h
      simp only [CFull.validated.injEq] at h
      obtain ⟨rfl, h2, h3, h4⟩ := h
      exact ⟨hmem, rfl, h2.symm, h3.symm, h4.symm⟩

theorem classify_of_validated {s t : Str} {rv : RV} {m u : List Str}
    (h : classifyFull s = .validated t rv m u) :
    classify s = if m = [] ∧ u = [] then .accepted rv else .rejected m u := by
  unfold classify
  rw [h]

theorem prefix_stripKH :
    ∀ (m : Str) (xs : Str), (∀ x ∈ xs, x ≠ 'k') → xs <+: m → xs <+: stripKH m := by
  intro m
  induction m using stripKH.induct with
  | case1 => intro xs _ h; simpa [stripKH] using h
  | case2 c => intro xs _ h; simpa [stripKH] using h
  | case3 c d => intro xs _ h; simpa [stripKH] using h
  | case4 c d e rest hc ih =>
    intro xs hx h
    obtain ⟨rfl, rfl, rfl⟩ := hc
    cases xs with
    | nil => exact List.nil_prefix
    | cons x xs2 =>
      exact absurd (List.cons_prefix_cons.mp h).1 (hx x (List.mem_cons_self x xs2))
  | case5 c d e rest hc ih =>
    intro xs hx h
    rw [show stripKH (c :: d :: e :: rest) = c :: stripKH (d :: e :: rest) from by
      simp [stripKH, hc]]
    cases xs with
    | nil => exact List.nil_prefix
    | cons x xs2 =>
      obtain ⟨rfl, h2⟩ := List.cons_prefix_cons.mp h
      exact List.cons_prefix_cons.mpr
        ⟨rfl, ih xs2 (fun y hy => hx y (List.mem_cons_of_mem x hy)) h2⟩

theorem infix_stripKH (pat : Str) (hne : pat ≠ [])
    (hav : ∀ x ∈ pat, x ≠ 'k' ∧ x ≠ 'h' ∧ x ≠ '-') :
    ∀ m, pat <:+: m → pat <:+: stripKH m := by
  intro m
  induction m using stripKH.induct with
  | case1 => intro h; simpa [stripKH] using h
  | case2 c => intro h; simpa [stripKH] using h
  | case3 c d => intro h; simpa [stripKH] using h
  | case4 c d e rest hc ih =>
    intro h
    obtain ⟨rfl, rfl, rfl⟩ := hc
    rw [show stripKH ('k' :: 'h' :: '-' :: rest) = stripKH rest from by simp [stripKH]]
    cases pat with
    | nil => exact absurd rfl hne
    | cons x xs =>
      rcases List.infix_cons_iff.mp h with hp | h2
      · exact absurd (List.cons_prefix_cons.mp hp).1 (hav x (List.mem_cons_self x xs)).1
      rcases List.infix_cons_iff.mp h2 with hp | h3
      · exact absurd (List.cons_prefix_cons.mp hp).1 (hav x (List.mem_cons_self x xs)).2.1
      rcases List.infix_cons_iff.mp h3 with hp | h4
      · exact absurd (List.cons_prefix_cons.mp hp).1 (hav x (List.mem_cons_self x xs)).2.2
      · exact ih h4
  | case5 c d e rest hc ih =>
    intro h
    rw [show stripKH (c :: d :: e :: rest) = c :: stripKH (d :: e :: rest) from by
      simp [stripKH, hc]]
    rcases List.infix_cons_iff.mp h with hp | h2
    · cases pat with
      | nil => exact absurd rfl hne
      | cons x xs =>
        obtain ⟨rfl, hxs⟩ := List.cons_prefix_cons.mp hp
        exact (List.cons_prefix_cons.mpr ⟨rfl, prefix_stripKH _ xs
          (fun y hy => (hav y (List.mem_cons_of_mem x hy)).1) hxs⟩).isInfix
    · exact (ih h2).trans (List.suffix_cons c _).isInfix

theorem splitU_ne_nil (l : Str) : splitU l ≠ [] := by
  cases l with
  | nil => simp [splitU]
  | cons c t =>
    simp only [splitU]
    cases splitU t with
    | nil => simp
    | cons h r => by_cases hc : c = '_' <;> simp [hc]

theorem splitU_no_underscore (l : Str) (h : '_' ∉ l) : splitU l = [l] := by
  induction l with
  | nil => rfl
  | cons c t ih =>
    have hc : c ≠ '_' := fun e => h (e ▸ List.mem_cons_self c t)
    have ht : '_' ∉ t := fun m => h (List.mem_cons_of_mem c m)
    simp [splitU, ih ht, hc]

theorem splitU_append (p : Str) (hp : '_' ∉ p) (r : Str) :
    splitU (p ++ '_' :: r) = p :: splitU r := by
  induction p with
  | nil =>
    show splitU ('_' :: r) = [] :: splitU r
    simp only [splitU]
    cases hsp : splitU r with
    | nil => exact absurd hsp (splitU_ne_nil r)
    | cons h rr => simp
  | cons c t ih =>
    have hc : c ≠ '_' := fun e => hp (e ▸ List.mem_cons_self c t)
    have ht : '_' ∉ t := fun m => hp (List.mem_cons_of_mem c m)
    show splitU (c :: (t ++ '_' :: r)) = (c :: t) :: splitU r
    simp only [splitU]
    rw [ih ht]
    simp [hc]

theorem splitU_joinU (ps : List Str) (hne : ps ≠ []) (h : ∀ p ∈ ps, '_' ∉ p) :
    splitU (joinU ps) = ps := by
  induction ps with
  | nil => exact absurd rfl hne
  | cons p t ih =>
    cases t with
    | nil => exact splitU_no_underscore p (h p (List.mem_cons_self p []))
    | cons q t2 =>
      show splitU (p ++ '_' :: joinU (q :: t2)) = p :: q :: t2
      rw [splitU_append p (h p (List.mem_cons_self p _)) _]
      rw [ih (by simp) (fun x hx => h x (List.mem_cons_of_mem p hx))]

/-! ## Claims -/

/-- C1, counterexample: a stem in which two different tokens (`black`,
`white`) map to the `color` group is not rejected with a
duplicate-attribute reason — it is accepted, and the conflict is silently
resolved to the last token's value (`white`). -/
theorem c1_counterexample :
    classify (sl "gruppe_black_white_size-m_center") =
      .accepted [(sl "asset_type", .strV (sl "standard_logo")),
                 (sl "division", .strV (sl "gruppe")),
                 (sl "color", .strV (sl "white")),
                 (sl "optical_size", .strV (sl "m")),
                 (sl "lockup", .strV (sl "center")),
                 (sl "bar", .boolV false),
                 (sl "trademark", .boolV false),
                 (sl "clearspace", .boolV false)] := by decide

/-- C1, amended: when two tokens of one filename map to the same attribute
group, classification does not reject the file; the group silently takes
the value of the last such token (last-token-wins).  Stated generally for
the token loop, and witnessed concretely: `black` then `white` yields
`white`, `white` then `black` yields `black`. -/
theorem c1_amended :
    (∀ (assetType g : Str) (v : Val) (p : Str) (l1 l2 : List Str) (st : RV × List Str),
      setsGroup assetType p = some (g, v) →
      (∀ q ∈ l2, ∀ w, setsGroup assetType q ≠ some (g, w)) →
      alookup g ((l1 ++ p :: l2).foldl (procPart assetType) st).1 = some v) ∧
    alookup (sl "color")
      (rvFinal (sl "standard_logo") (sl "gruppe_black_white_size-m_center")) =
      some (.strV (sl "white")) ∧
    alookup (sl "color")
      (rvFinal (sl "standard_logo") (sl "gruppe_white_black_size-m_center")) =
      some (.strV (sl "black")) :=
  ⟨fun aT g v p l1 l2 st hset hafter =>
    foldl_last_set_wins aT g v p l1 l2 st hset hafter, by decide, by decide⟩

/-- C1, witness for the amended theorem: processing `black` then `white`
leaves `color = white`. -/
theorem c1_amended_witness :
    alookup (sl "color")
      (([sl "black"] ++ (sl "white") :: []).foldl
        (procPart (sl "standard_logo")) ([], [])).1 =
      some (.strV (sl "white")) :=
  c1_amended.1 (sl "standard_logo") (sl "color") (.strV (sl "white")) (sl "white")
    [sl "black"] [] ([], []) (by decide) (fun q hq => absurd hq (List.not_mem_nil q))

/-- C2, counterexample: two accepted records with the same variant key and
the same slot key: the grouper's entire output keeps only the later
locator; the earlier locator `old.svg` appears nowhere in the output and
no replacement report of any kind is produced (the output is the whole
result of the function). -/
theorem c2_counterexample :
    groupAndFinalize
      [⟨sl "old.svg", [(sl "color", .strV (sl "black"))]⟩,
       ⟨sl "new.svg", [(sl "color", .strV (sl "black"))]⟩] =
      [⟨[(sl "color", .strV (sl "black"))], [(sl "svg", sl "new.svg")]⟩] ∧
    ((groupAndFinalize
      [⟨sl "old.svg", [(sl "color", .strV (sl "black"))]⟩,
       ⟨sl "new.svg", [(sl "color", .strV (sl "black"))]⟩]).all
        (fun lg => lg.links.all (fun pr => pr.2 ≠ sl "old.svg"))) = true := by
  exact ⟨by decide, by decide⟩

/-- C2, amended: when two accepted files map to the same variant and the
same slot key, the grouper silently overwrites: the final output contains
exactly one entry for that variant holding only the later file's locator,
and no report of the displaced locator is produced (slot collisions remain
non-terminal). -/
theorem c2_amended (f1 f2 : PFile)
    (hk : variantKey f1.rv = variantKey f2.rv)
    (hs : formatKey f1 = formatKey f2) :
    groupAndFinalize [f1, f2] =
      [⟨variantKey f2.rv, [(formatKey f2, f2.url)]⟩] := by
  unfold groupAndFinalize
  simp only [List.foldl_cons, List.foldl_nil]
  unfold groupStep
  rw [show gset (variantKey f1.rv) (formatKey f1) f1.url [] =
        [(variantKey f1.rv, [(formatKey f1, f1.url)])] from rfl]
  rw [hk, hs]
  rw [show gset (variantKey f2.rv) (formatKey f2) f2.url
        [(variantKey f2.rv, [(formatKey f2, f1.url)])] =
        [(variantKey f2.rv, lset (formatKey f2) f2.url [(formatKey f2, f1.url)])] from by
      simp [gset]]
  rw [show lset (formatKey f2) f2.url [(formatKey f2, f1.url)] =
        [(formatKey f2, f2.url)] from by simp [lset]]
  rfl

/-- C2, witness: the amended theorem applied to a concrete colliding pair. -/
theorem c2_amended_witness :
    groupAndFinalize
      [⟨sl "a.svg", [(sl "color", .strV (sl "white"))]⟩,
       ⟨sl "b.svg", [(sl "color", .strV (sl "white"))]⟩] =
      [⟨variantKey [(sl "color", .strV (sl "white"))],
        [(formatKey ⟨sl "b.svg", [(sl "color", .strV (sl "white"))]⟩, sl "b.svg")]⟩] :=
  c2_amended
    ⟨sl "a.svg", [(sl "color", .strV (sl "white"))]⟩
    ⟨sl "b.svg", [(sl "color", .strV (sl "white"))]⟩
    (by decide) (by decide)

/-- C3: brand/asset-type resolution tests the stem against the keys in
descending key-length order and takes the first match, so a stem starting
with the longer of two nested keys never resolves to the shorter key (the
match found is at least as long as the longer key); and when no key
matches and no favicon/monogram marker applies, classification rejects
with the unrecognized-brand reason. -/
theorem c3_theorem :
    (∀ (ks : List Str) (s k1 k2 : Str), k1 ∈ ks → k2 ∈ ks → k1 <+: k2 → k1 ≠ k2 →
      k2 <+: s →
      firstPrefixMatch (sortKeysDesc ks) s ≠ some k1 ∧
      ∃ k, firstPrefixMatch (sortKeysDesc ks) s = some k ∧
        k2.length ≤ k.length ∧ k <+: s) ∧
    (∀ s : Str, detectBrandKey (stripKH (lcL s)) = none →
      hintOf (stripKH (lcL s)) = none → classify s = .unknownBrand) := by
  constructor
  · intro ks s k1 k2 h1 h2 hpre hne hpre2
    have hsorted : List.Pairwise lenDesc (sortKeysDesc ks) := by
      haveI : IsTotal Str lenDesc := ⟨fun a b => Nat.le_total b.length a.length⟩
      haveI : IsTrans Str lenDesc := ⟨fun a b c hab hbc => le_trans hbc hab⟩
      exact List.sorted_insertionSort lenDesc ks
    have hk2mem : k2 ∈ sortKeysDesc ks :=
      ((List.perm_insertionSort lenDesc ks).mem_iff).mpr h2
    have hlen : k1.length < k2.length :=
      lt_of_le_of_ne hpre.length_le
        (fun e => hne (List.IsPrefix.eq_of_length hpre e))
    obtain ⟨k, hk, hl, hp, hkne⟩ := fpm_longest s k1 _ hsorted k2 hk2mem hpre2 hlen
    refine ⟨fun e => hkne ?_, ⟨k, hk, hl, hp⟩⟩
    rw [hk] at e
    exact (Option.some.injEq _ _).mp e
  · intro s hdet hhint
    have hmem : s ∉ brandCanonL := by
      intro hm
      simp only [brandCanonL, List.mem_cons, List.not_mem_nil, or_false] at hm
      rcases hm with rfl | rfl | rfl | rfl | rfl <;> revert hdet <;> decide
    have hfull : classifyFull s = .unknownBrand := by
      unfold classifyFull
      rw [if_neg hmem]
      unfold classifyRest
      rw [hdet, hhint]
      rfl
    unfold classify
    rw [hfull]

/-- C3, witness: with the spec's hypothetical keys `kh` and `kh-extended`
the stem `kh-extended_logo` never resolves to `kh`; and the unknown stem
`mystery_black` is rejected as unrecognized. -/
theorem c3_witness :
    (firstPrefixMatch (sortKeysDesc [sl "kh", sl "kh-extended"])
        (sl "kh-extended_logo") ≠ some (sl "kh") ∧
      ∃ k, firstPrefixMatch (sortKeysDesc [sl "kh", sl "kh-extended"])
          (sl "kh-extended_logo") = some k ∧
        (sl "kh-extended").length ≤ k.length ∧ k <+: sl "kh-extended_logo") ∧
    classify (sl "mystery_black") = .unknownBrand :=
  ⟨c3_theorem.1 [sl "kh", sl "kh-extended"] (sl "kh-extended_logo")
      (sl "kh") (sl "kh-extended") (by decide) (by decide) (by decide)
      (by decide) (by decide),
    c3_theorem.2 (sl "mystery_black") (by decide) (by decide)⟩

/-- C4, counterexample: a stem with a duplicate-group conflict (`white`
and `black` both set `color`) is accepted — so acceptance is not
conditional on the absence of duplicate-group conflicts, refuting the
claimed three-way iff. -/
theorem c4_counterexample :
    classify (sl "immobilien_white_black_size-m_center") =
      .accepted [(sl "asset_type", .strV (sl "standard_logo")),
                 (sl "division", .strV (sl "immobilien")),
                 (sl "color", .strV (sl "black")),
                 (sl "optical_size", .strV (sl "m")),
                 (sl "lockup", .strV (sl "center")),
                 (sl "bar", .boolV false),
                 (sl "trademark", .boolV false),
                 (sl "clearspace", .boolV false)] := by decide

/-- C4, amended: a classified file is accepted iff its missing-group list
and its unmatched-token list are both empty (duplicate-group conflicts
play no role); every accepted record satisfies
`required(asset_type) ⊆ present groups`; and a rejected file's entry
carries both complete reason lists (all missing groups and all unmatched
tokens), not just the first reason found. -/
theorem c4_amended (s t : Str) (rv : RV) (m u : List Str)
    (h : classifyFull s = .validated t rv m u) :
    (classify s = .accepted rv ↔ (m = [] ∧ u = [])) ∧
    (classify s = .accepted rv → ∀ g ∈ requiredOf t, (alookup g rv).isSome) ∧
    (¬(m = [] ∧ u = []) → classify s = .rejected m u) := by
  have hc := classify_of_validated h
  obtain ⟨_, _, hrv, hm, _⟩ := classifyFull_validated_inv h
  have hiff : classify s = .accepted rv ↔ (m = [] ∧ u = []) := by
    constructor
    · intro ha
      by_contra hcon
      rw [hc, if_neg hcon] at ha
      exact absurd ha (by simp)
    · intro hmu
      rw [hc, if_pos hmu]
  refine ⟨hiff, ?_, ?_⟩
  · intro ha g hg
    have hm0 : m = [] := (hiff.mp ha).1
    have hfil : (requiredOf t).filter (fun g => (alookup g rv).isNone) = [] := by
      have : (requiredOf t).filter (fun g => (alookup g rv).isNone) =
          missingOf t (stripKH (lcL s)) := by
        rw [hrv]
        rfl
      rw [this, ← hm, hm0]
    have hni := List.filter_eq_nil_iff.mp hfil g hg
    cases halo : alookup g rv with
    | none => exact absurd (by simp [halo]) hni
    | some v => simp
  · intro hcon
    rw [hc, if_neg hcon]

/-- C4, witness: the amended theorem applied to an accepted stem. -/
theorem c4_amended_witness :
    classify (sl "gruppe_black_size-m_center") =
      .accepted [(sl "asset_type", .strV (sl "standard_logo")),
                 (sl "division", .strV (sl "gruppe")),
                 (sl "color", .strV (sl "black")),
                 (sl "optical_size", .strV (sl "m")),
                 (sl "lockup", .strV (sl "center")),
                 (sl "bar", .boolV false),
                 (sl "trademark", .boolV false),
                 (sl "clearspace", .boolV false)] :=
  (c4_amended (sl "gruppe_black_size-m_center") (sl "standard_logo") _ [] []
    (by decide)).1.mpr ⟨rfl, rfl⟩

/-- C5: the variant-grouping key is the sorted `(group, value)` pair list
with the `modifier` group excluded, so it does not depend on the insertion
order of the attributes (token order in the filename); and two accepted
records differing only in extension and color-mode land in one variant
under two distinct slot keys (`svg_rgb`, `png_cmyk`). -/
theorem c5_theorem :
    (∀ rv1 rv2 : RV, rv1.Perm rv2 → rv1.Pairwise (fun a b => a.1 ≠ b.1) →
      variantKey rv1 = variantKey rv2) ∧
    (classify (sl "gruppe_black_size-m_center_rgb") =
      .accepted [(sl "asset_type", .strV (sl "standard_logo")),
                 (sl "division", .strV (sl "gruppe")),
                 (sl "color", .strV (sl "black")),
                 (sl "optical_size", .strV (sl "m")),
                 (sl "lockup", .strV (sl "center")),
                 (sl "modifier", .strV (sl "rgb")),
                 (sl "bar", .boolV false),
                 (sl "trademark", .boolV false),
                 (sl "clearspace", .boolV false)] ∧
     classify (sl "gruppe_black_size-m_center_cmyk") =
      .accepted [(sl "asset_type", .strV (sl "standard_logo")),
                 (sl "division", .strV (sl "gruppe")),
                 (sl "color", .strV (sl "black")),
                 (sl "optical_size", .strV (sl "m")),
                 (sl "lockup", .strV (sl "center")),
                 (sl "modifier", .strV (sl "cmyk")),
                 (sl "bar", .boolV false),
                 (sl "trademark", .boolV false),
                 (sl "clearspace", .boolV false)] ∧
     groupAndFinalize
       [⟨sl "gruppe_black_size-m_center_rgb.svg",
         [(sl "asset_type", .strV (sl "standard_logo")),
          (sl "division", .strV (sl "gruppe")),
          (sl "color", .strV (sl "black")),
          (sl "optical_size", .strV (sl "m")),
          (sl "lockup", .strV (sl "center")),
          (sl "modifier", .strV (sl "rgb")),
          (sl "bar", .boolV false),
          (sl "trademark", .boolV false),
          (sl "clearspace", .boolV false)]⟩,
        ⟨sl "gruppe_black_size-m_center_cmyk.png",
         [(sl "asset_type", .strV (sl "standard_logo")),
          (sl "division", .strV (sl "gruppe")),
          (sl "color", .strV (sl "black")),
          (sl "optical_size", .strV (sl "m")),
          (sl "lockup", .strV (sl "center")),
          (sl "modifier", .strV (sl "cmyk")),
          (sl "bar", .boolV false),
          (sl "trademark", .boolV false),
          (sl "clearspace", .boolV false)]⟩] =
       [⟨[(sl "asset_type", .strV (sl "standard_logo")),
          (sl "bar", .boolV false),
          (sl "clearspace", .boolV false),
          (sl "color", .strV (sl "black")),
          (sl "division", .strV (sl "gruppe")),
          (sl "lockup", .strV (sl "center")),
          (sl "optical_size", .strV (sl "m")),
          (sl "trademark", .boolV false)],
         [(sl "svg_rgb", sl "gruppe_black_size-m_center_rgb.svg"),
          (sl "png_cmyk", sl "gruppe_black_size-m_center_cmyk.png")]⟩]) := by
  constructor
  · intro rv1 rv2 hperm hnodup
    unfold variantKey
    have hpf : (rv1.filter (fun p => p.1 ≠ sl "modifier")).Perm
        (rv2.filter (fun p => p.1 ≠ sl "modifier")) := hperm.filter _
    haveI : IsTotal (Str × Val) pairLe := ⟨fun a b => le_total a.1 b.1⟩
    haveI : IsTrans (Str × Val) pairLe := ⟨fun a b c hab hbc => le_trans hab hbc⟩
    apply eq_of_perm_of_sorted_key (fun p : Str × Val => p.1)
    · exact (List.perm_insertionSort _ _).trans
        (hpf.trans (List.perm_insertionSort _ _).symm)
    · have h1 : (rv1.filter (fun p => p.1 ≠ sl "modifier")).Pairwise
          (fun a b => a.1 ≠ b.1) := hnodup.filter _
      exact ((List.perm_insertionSort pairLe _).pairwise_iff
        (fun hxy => hxy.symm)).mpr h1
    · exact List.sorted_insertionSort pairLe _
    · exact List.sorted_insertionSort pairLe _
  · exact ⟨by decide, by decide, by decide⟩

/-- C5, witness: the general part applied to a two-entry permutation. -/
theorem c5_witness :
    variantKey [(sl "a", .strV (sl "x")), (sl "b", .boolV true)] =
      variantKey [(sl "b", .boolV true), (sl "a", .strV (sl "x"))] :=
  c5_theorem.1 _ _ (by decide) (by decide)

/-- C7, counterexample: two variants sharing asset type and division
(differing only in color) come out in input-encounter order, not in a
deterministic attribute order: feeding the same two accepted records in
the two possible orders (the same input set) produces two differently
ordered variant lists. -/
theorem c7_counterexample :
    ([(⟨sl "u1.svg", [(sl "asset_type", .strV (sl "standard_logo")),
                      (sl "division", .strV (sl "gruppe")),
                      (sl "color", .strV (sl "black"))]⟩ : PFile),
      ⟨sl "u2.svg", [(sl "asset_type", .strV (sl "standard_logo")),
                     (sl "division", .strV (sl "gruppe")),
                     (sl "color", .strV (sl "white"))]⟩].Perm
     [⟨sl "u2.svg", [(sl "asset_type", .strV (sl "standard_logo")),
                     (sl "division", .strV (sl "gruppe")),
                     (sl "color", .strV (sl "white"))]⟩,
      ⟨sl "u1.svg", [(sl "asset_type", .strV (sl "standard_logo")),
                     (sl "division", .strV (sl "gruppe")),
                     (sl "color", .strV (sl "black"))]⟩]) ∧
    groupAndFinalize
      [⟨sl "u1.svg", [(sl "asset_type", .strV (sl "standard_logo")),
                      (sl "division", .strV (sl "gruppe")),
                      (sl "color", .strV (sl "black"))]⟩,
       ⟨sl "u2.svg", [(sl "asset_type", .strV (sl "standard_logo")),
                      (sl "division", .strV (sl "gruppe")),
                      (sl "color", .strV (sl "white"))]⟩] ≠
    groupAndFinalize
      [⟨sl "u2.svg", [(sl "asset_type", .strV (sl "standard_logo")),
                      (sl "division", .strV (sl "gruppe")),
                      (sl "color", .strV (sl "white"))]⟩,
       ⟨sl "u1.svg", [(sl "asset_type", .strV (sl "standard_logo")),
                      (sl "division", .strV (sl "gruppe")),
                      (sl "color", .strV (sl "black"))]⟩] := by
  exact ⟨by decide, by decide⟩

/-- C7, amended: the emitted variant list is sorted (stably) by the
composite key `(asset type, division)` only; the remaining attributes are
not part of the sort key, so variants sharing asset type and division
retain the order in which the grouper first encountered them. -/
theorem c7_amended (files : List PFile) :
    (groupAndFinalize files).Pairwise logoLe := by
  unfold groupAndFinalize
  haveI : IsTotal Logo logoLe := ⟨fun a b => le_total (logoSortKey a) (logoSortKey b)⟩
  haveI : IsTrans Logo logoLe := ⟨fun a b c hab hbc => le_trans hab hbc⟩
  exact List.sorted_insertionSort logoLe _

/-- C9, counterexample: classifying a stem and classifying the same stem
with `kh-` occurrences removed can disagree: removing `kh-` from
`..._kkh-h-` leaves `..._kh-`, which the classifier (whose own single-pass
removal is not idempotent) then strips entirely, so the original stem is
rejected for the unmatched token `kh-` while the stripped stem is
accepted. -/
theorem c9_counterexample :
    classify (sl "gruppe_black_size-m_center_kkh-h-") =
      .rejected [] [sl "kh-"] ∧
    stripKH (sl "gruppe_black_size-m_center_kkh-h-") =
      sl "gruppe_black_size-m_center_kh-" ∧
    classify (stripKH (sl "gruppe_black_size-m_center_kkh-h-")) =
      .accepted [(sl "asset_type", .strV (sl "standard_logo")),
                 (sl "division", .strV (sl "gruppe")),
                 (sl "color", .strV (sl "black")),
                 (sl "optical_size", .strV (sl "m")),
                 (sl "lockup", .strV (sl "center")),
                 (sl "bar", .boolV false),
                 (sl "trademark", .boolV false),
                 (sl "clearspace", .boolV false)] := by
  exact ⟨by decide, by decide, by decide⟩

/-- C9, amended: the classifier does lowercase the stem and delete `kh-`
occurrences everywhere in it, but the removal is a single pass; the
claimed equivalence `classify s = classify (strip s)` holds only when the
stripped form is a fixed point of stripping and lowercasing and neither
name collides with a top-level brand ZIP name. -/
theorem c9_amended (s : Str)
    (h1 : s ∉ brandCanonL)
    (h2 : stripKH (lcL s) ∉ brandCanonL)
    (h3 : stripKH (stripKH (lcL s)) = stripKH (lcL s))
    (h4 : lcL (stripKH (lcL s)) = stripKH (lcL s)) :
    classifyFull (stripKH (lcL s)) = classifyFull s ∧
    classify (stripKH (lcL s)) = classify s := by
  have e1 : classifyFull s = classifyRest (stripKH (lcL s)) := by
    unfold classifyFull
    rw [if_neg h1]
  have e2 : classifyFull (stripKH (lcL s)) = classifyRest (stripKH (lcL s)) := by
    unfold classifyFull
    rw [if_neg h2, h4, h3]
  refine ⟨e2.trans e1.symm, ?_⟩
  unfold classify
  rw [e1, e2]

/-- C9, witness: a stem whose stripped form is stable classifies exactly
like its stripped form. -/
theorem c9_amended_witness :
    classify (stripKH (lcL (sl "kh-gruppe_black_size-m_center"))) =
      classify (sl "kh-gruppe_black_size-m_center") :=
  (c9_amended (sl "kh-gruppe_black_size-m_center")
    (by decide) (by decide) (by decide) (by decide)).2

/-- C10, counterexample: a stem containing `monogram` is not always given
the monogram asset type — `favicon` is tested first, so a stem containing
both markers resolves to `favicon`. -/
theorem c10_counterexample :
    hasSub (sl "monogram") (lcL (sl "monogram_favicon_black")) = true ∧
    classifyFull (sl "monogram_favicon_black") =
      .validated (sl "favicon")
        [(sl "asset_type", .strV (sl "favicon")),
         (sl "color", .strV (sl "black"))] [] [] := by
  exact ⟨by decide, by decide⟩

/-- C10, amended: a stem whose lowercased form contains `favicon` is never
rejected with the unrecognized-brand reason: its asset type is `favicon`
(whose only required group is `color`) and it is accepted whenever a color
is present and no token is unmatched.  The same holds for `monogram`
provided `favicon` does not also occur in the classifier's stripped stem
(favicon takes priority). -/
theorem c10_amended :
    (∀ s : Str, (sl "favicon") <:+: lcL s →
      classify s ≠ .unknownBrand ∧
      classifyFull s = .validated (sl "favicon")
        (rvFinal (sl "favicon") (stripKH (lcL s)))
        (missingOf (sl "favicon") (stripKH (lcL s)))
        (unmatchedOf (sl "favicon") (stripKH (lcL s))) ∧
      ((alookup (sl "color") (rvFinal (sl "favicon") (stripKH (lcL s)))).isSome →
        unmatchedOf (sl "favicon") (stripKH (lcL s)) = [] →
        classify s = .accepted (rvFinal (sl "favicon") (stripKH (lcL s))))) ∧
    (∀ s : Str, (sl "monogram") <:+: lcL s →
      ¬((sl "favicon") <:+: stripKH (lcL s)) →
      classify s ≠ .unknownBrand ∧
      classifyFull s = .validated (sl "monogram")
        (rvFinal (sl "monogram") (stripKH (lcL s)))
        (missingOf (sl "monogram") (stripKH (lcL s)))
        (unmatchedOf (sl "monogram") (stripKH (lcL s))) ∧
      ((alookup (sl "color") (rvFinal (sl "monogram") (stripKH (lcL s)))).isSome →
        unmatchedOf (sl "monogram") (stripKH (lcL s)) = [] →
        classify s = .accepted (rvFinal (sl "monogram") (stripKH (lcL s))))) := by
  constructor
  · intro s hfav
    have hfavp : (sl "favicon") <:+: stripKH (lcL s) :=
      infix_stripKH (sl "favicon") (by decide) (by decide) _ hfav
    have hmem : s ∉ brandCanonL := by
      intro hm
      simp only [brandCanonL, List.mem_cons, List.not_mem_nil, or_false] at hm
      rcases hm with rfl | rfl | rfl | rfl | rfl <;> revert hfav <;> decide
    have hb : hasSub (sl "favicon") (stripKH (lcL s)) = true := by
      exact decide_eq_true hfavp
    have hhint : hintOf (stripKH (lcL s)) = some (sl "favicon") := by
      unfold hintOf
      rw [if_pos hb]
    have hAT : assetTypeOf (hintOf (stripKH (lcL s)))
        (detectBrandKey (stripKH (lcL s))) = some (sl "favicon") := by
      rw [hhint]
      rfl
    have hfull : classifyFull s = .validated (sl "favicon")
        (rvFinal (sl "favicon") (stripKH (lcL s)))
        (missingOf (sl "favicon") (stripKH (lcL s)))
        (unmatchedOf (sl "favicon") (stripKH (lcL s))) := by
      unfold classifyFull
      rw [if_neg hmem]
      unfold classifyRest
      rw [hAT]
    refine ⟨?_, hfull, ?_⟩
    · rw [classify_of_validated hfull]
      split_ifs <;> simp
    · intro hcol hunm
      have hmiss : missingOf (sl "favicon") (stripKH (lcL s)) = [] := by
        unfold missingOf
        rw [show requiredOf (sl "favicon") = [sl "color"] from rfl]
        cases halo : alookup (sl "color") (rvFinal (sl "favicon") (stripKH (lcL s))) with
        | none => rw [halo] at hcol; exact absurd hcol (by simp)
        | some v => simp [halo]
      rw [classify_of_validated hfull, if_pos ⟨hmiss, hunm⟩]
  · intro s hmono hnofav
    have hmonop : (sl "monogram") <:+: stripKH (lcL s) :=
      infix_stripKH (sl "monogram") (by decide) (by decide) _ hmono
    have hmem : s ∉ brandCanonL := by
      intro hm
      simp only [brandCanonL, List.mem_cons, List.not_mem_nil, or_false] at hm
      rcases hm with rfl | rfl | rfl | rfl | rfl <;> revert hmono <;> decide
    have hbf : hasSub (sl "favicon") (stripKH (lcL s)) = false := by
      exact decide_eq_false hnofav
    have hbm : hasSub (sl "monogram") (stripKH (lcL s)) = true := by
      exact decide_eq_true hmonop
    have hhint : hintOf (stripKH (lcL s)) = some (sl "monogram") := by
      unfold hintOf
      rw [if_neg (by rw [hbf]; exact Bool.false_ne_true), if_pos hbm]
    have hAT : assetTypeOf (hintOf (stripKH (lcL s)))
        (detectBrandKey (stripKH (lcL s))) = some (sl "monogram") := by
      rw [hhint]
      rfl
    have hfull : classifyFull s = .validated (sl "monogram")
        (rvFinal (sl "monogram") (stripKH (lcL s)))
        (missingOf (sl "monogram") (stripKH (lcL s)))
        (unmatchedOf (sl "monogram") (stripKH (lcL s))) := by
      unfold classifyFull
      rw [if_neg hmem]
      unfold classifyRest
      rw [hAT]
    refine ⟨?_, hfull, ?_⟩
    · rw [classify_of_validated hfull]
      split_ifs <;> simp
    · intro hcol hunm
      have hmiss : missingOf (sl "monogram") (stripKH (lcL s)) = [] := by
        unfold missingOf
        rw [show requiredOf (sl "monogram") = [sl "color"] from rfl]
        cases halo : alookup (sl "color") (rvFinal (sl "monogram") (stripKH (lcL s))) with
        | none => rw [halo] at hcol; exact absurd hcol (by simp)
        | some v => simp [halo]
      rw [classify_of_validated hfull, if_pos ⟨hmiss, hunm⟩]

/-- C10, witness: a favicon stem and a monogram stem, both with a color
and no stray tokens, are accepted with the respective asset types. -/
theorem c10_amended_witness :
    classify (sl "favicon_black") =
      .accepted (rvFinal (sl "favicon") (stripKH (lcL (sl "favicon_black")))) ∧
    classify (sl "monogram_white") =
      .accepted (rvFinal (sl "monogram") (stripKH (lcL (sl "monogram_white")))) :=
  ⟨(c10_amended.1 (sl "favicon_black") (by decide)).2.2 (by decide) (by decide),
   (c10_amended.2 (sl "monogram_white") (by decide) (by decide)).2.2
     (by decide) (by decide)⟩

theorem lockupTok_props (t : Tokens) :
    '_' ∉ lockupTok t ∧ lockupTok t ≠ sl "trademark" ∧
    lockupTok t ≠ sl "no-trademark" := by
  unfold lockupTok
  cases t.lockup with
  | none => exact ⟨by decide, by decide, by decide⟩
  | some lu =>
    simp only []
    by_cases hc : lu ∈ lockupCanon
    · rw [if_pos hc]
      simp only [lockupCanon, List.mem_cons, List.not_mem_nil, or_false] at hc
      rcases hc with rfl | rfl | rfl | rfl <;> exact ⟨by decide, by decide, by decide⟩
    · rw [if_neg hc]
      exact ⟨by decide, by decide, by decide⟩

theorem buildMid_mem (brand : Str) (t : Tokens) :
    ∀ x ∈ buildMid brand t,
      '_' ∉ x ∧ x ≠ sl "trademark" ∧ x ≠ sl "no-trademark" := by
  intro x hx
  unfold buildMid at hx
  by_cases h1 : brand ∈ divisionsWithLockups ∧ ¬t.dreihaus
  · rw [if_pos h1] at hx
    rcases List.mem_append.mp hx with hx1 | hx2
    · rw [List.mem_singleton] at hx1
      subst hx1
      exact lockupTok_props t
    · by_cases hb : t.bar = some true
      · rw [if_pos hb, List.mem_singleton] at hx2
        subst hx2
        exact ⟨by decide, by decide, by decide⟩
      · rw [if_neg hb] at hx2
        exact absurd hx2 (List.not_mem_nil x)
  · rw [if_neg h1] at hx
    by_cases h2 : brand = sl "KORTE-HOFFMANN"
    · rw [if_pos h2] at hx
      by_cases hk : t.khCompact = some true
      · rw [if_pos hk, List.mem_singleton] at hx
        subst hx
        exact ⟨by decide, by decide, by decide⟩
      · rw [if_neg hk] at hx
        exact absurd hx (List.not_mem_nil x)
    · rw [if_neg h2] at hx
      exact absurd hx (List.not_mem_nil x)

theorem sizeTok_ne_tm (sz : Str) : sl "size-" ++ sz ≠ sl "trademark" := by
  intro e
  have h5 := congrArg (List.take 5) e
  rw [show (5 : Nat) = (sl "size-").length from rfl, List.take_left] at h5
  exact absurd h5 (by decide)

theorem sizeTok_ne_ntm (sz : Str) : sl "size-" ++ sz ≠ sl "no-trademark" := by
  intro e
  have h5 := congrArg (List.take 5) e
  rw [show (5 : Nat) = (sl "size-").length from rfl, List.take_left] at h5
  exact absurd h5 (by decide)

theorem applyDefaultsSL_tm (br : Str) (tk : Tokens) (h : tk.trademark = none) :
    (applyDefaultsSL br tk).trademark = some false := by
  unfold applyDefaultsSL
  split_ifs <;> simp [h]

/-- C6: the synthesized canonical filename renders only positive boolean
tokens — when `trademark` is not `True`, neither `trademark` nor any
`no-trademark` token appears among the name's attribute tokens — and
feeding the canonical name back through token classification plus the
defaulting step yields `trademark = False` again (classification after
synthesis is the identity on the canonical form for this boolean). -/
theorem c6_theorem (brand : Str) (t : Tokens)
    (hslug : '_' ∉ t.slug)
    (hcu : '_' ∉ pyOrS t.color (sl "black"))
    (hct : pyOrS t.color (sl "black") ≠ sl "trademark")
    (hcn : pyOrS t.color (sl "black") ≠ sl "no-trademark")
    (hsu : '_' ∉ pyOrS t.size (sl "m"))
    (hmu : '_' ∉ pyOrS t.mode (sl "rgb"))
    (hmt : pyOrS t.mode (sl "rgb") ≠ sl "trademark")
    (hmn : pyOrS t.mode (sl "rgb") ≠ sl "no-trademark")
    (htm : t.trademark ≠ some true) :
    (sl "trademark") ∉ (splitU (buildNewFilename brand t)).tail ∧
    (sl "no-trademark") ∉ (splitU (buildNewFilename brand t)).tail ∧
    (parseTokensFull (buildNewFilename brand t)).trademark = none ∧
    (applyDefaultsSL brand (parseTokensFull (buildNewFilename brand t))).trademark =
      some false := by
  have htail : (buildParts brand t).tail =
      buildMid brand t ++
      [pyOrS t.color (sl "black"), sl "size-" ++ pyOrS t.size (sl "m")] ++
      (if t.trademark = some true then [sl "trademark"] else []) ++
      (if t.clearspace = some true then [sl "clearspace"] else []) ++
      [pyOrS t.mode (sl "rgb")] := rfl
  have hmem_tm : (sl "trademark") ∉ (buildParts brand t).tail := by
    rw [htail]
    refine List.not_mem_append (List.not_mem_append (List.not_mem_append
      (List.not_mem_append ?_ ?_) ?_) ?_) ?_
    · exact fun hm => (buildMid_mem brand t _ hm).2.1 rfl
    · intro hm
      rcases List.mem_cons.mp hm with h | h
      · exact hct h.symm
      rcases List.mem_cons.mp h with h2 | h2
      · exact sizeTok_ne_tm _ h2.symm
      · exact absurd h2 (List.not_mem_nil _)
    · split_ifs with h
      · exact absurd h htm
      · exact List.not_mem_nil _
    · split_ifs with h
      · decide
      · exact List.not_mem_nil _
    · intro hm
      rcases List.mem_cons.mp hm with h | h
      · exact hmt h.symm
      · exact absurd h (List.not_mem_nil _)
  have hmem_ntm : (sl "no-trademark") ∉ (buildParts brand t).tail := by
    rw [htail]
    refine List.not_mem_append (List.not_mem_append (List.not_mem_append
      (List.not_mem_append ?_ ?_) ?_) ?_) ?_
    · exact fun hm => (buildMid_mem brand t _ hm).2.2 rfl
    · intro hm
      rcases List.mem_cons.mp hm with h | h
      · exact hcn h.symm
      rcases List.mem_cons.mp h with h2 | h2
      · exact sizeTok_ne_ntm _ h2.symm
      · exact absurd h2 (List.not_mem_nil _)
    · split_ifs with h
      · exact absurd h htm
      · exact List.not_mem_nil _
    · split_ifs with h
      · decide
      · exact List.not_mem_nil _
    · intro hm
      rcases List.mem_cons.mp hm with h | h
      · exact hmn h.symm
      · exact absurd h (List.not_mem_nil _)
  have hall : ∀ p ∈ buildParts brand t, '_' ∉ p := by
    intro p hp
    rw [show buildParts brand t = t.slug ::
        (buildMid brand t ++
         [pyOrS t.color (sl "black"), sl "size-" ++ pyOrS t.size (sl "m")] ++
         (if t.trademark = some true then [sl "trademark"] else []) ++
         (if t.clearspace = some true then [sl "clearspace"] else []) ++
         [pyOrS t.mode (sl "rgb")]) from rfl] at hp
    rcases List.mem_cons.mp hp with rfl | hp2
    · exact hslug
    rcases List.mem_append.mp hp2 with h4 | h4
    swap
    · rcases List.mem_cons.mp h4 with rfl | h
      · exact hmu
      · exact absurd h (List.not_mem_nil _)
    rcases List.mem_append.mp h4 with h3 | h3
    swap
    · revert h3
      split_ifs with h
      · intro h3
        rcases List.mem_cons.mp h3 with rfl | h0
        · decide
        · exact absurd h0 (List.not_mem_nil _)
      · intro h3
        exact absurd h3 (List.not_mem_nil _)
    rcases List.mem_append.mp h3 with h2 | h2
    swap
    · revert h2
      split_ifs with h
      · intro h2
        rcases List.mem_cons.mp h2 with rfl | h0
        · decide
        · exact absurd h0 (List.not_mem_nil _)
      · intro h2
        exact absurd h2 (List.not_mem_nil _)
    rcases List.mem_append.mp h2 with h1 | h1
    · exact (buildMid_mem brand t _ h1).1
    · rcases List.mem_cons.mp h1 with rfl | h0
      · exact hcu
      rcases List.mem_cons.mp h0 with rfl | h00
      · intro hmm
        rcases List.mem_append.mp hmm with h | h
        · exact absurd h (by decide)
        · exact hsu h
      · exact absurd h00 (List.not_mem_nil _)
  have hne : buildParts brand t ≠ [] := by
    rw [show buildParts brand t = t.slug ::
        (buildMid brand t ++
         [pyOrS t.color (sl "black"), sl "size-" ++ pyOrS t.size (sl "m")] ++
         (if t.trademark = some true then [sl "trademark"] else []) ++
         (if t.clearspace = some true then [sl "clearspace"] else []) ++
         [pyOrS t.mode (sl "rgb")]) from rfl]
    simp
  have hsplit : splitU (buildNewFilename brand t) = buildParts brand t :=
    splitU_joinU _ hne hall
  have e : (parseTokensFull (buildNewFilename brand t)).trademark =
      (if (sl "trademark") ∈ (splitU (buildNewFilename brand t)).tail ∧
          (sl "no-trademark") ∉ (splitU (buildNewFilename brand t)).tail then some true
       else if (sl "no-trademark") ∈ (splitU (buildNewFilename brand t)).tail then
         some false
       else none) := rfl
  have hp1 : (sl "trademark") ∉ (splitU (buildNewFilename brand t)).tail := by
    rw [hsplit]
    exact hmem_tm
  have hp2 : (sl "no-trademark") ∉ (splitU (buildNewFilename brand t)).tail := by
    rw [hsplit]
    exact hmem_ntm
  have hparse : (parseTokensFull (buildNewFilename brand t)).trademark = none := by
    rw [e, if_neg (fun hand => hp1 hand.1), if_neg hp2]
  exact ⟨hp1, hp2, hparse, applyDefaultsSL_tm brand _ hparse⟩

/-- C6, witness: a concrete canonical attribute set with
`trademark = False` synthesizes to a name without a trademark token, and
parsing plus defaulting returns `trademark = False`. -/
theorem c6_witness :
    (applyDefaultsSL (sl "KH-Gruppe")
      (parseTokensFull (buildNewFilename (sl "KH-Gruppe")
        ⟨sl "gruppe", some (sl "center"), some false, some (sl "m"), some false,
         some false, some (sl "black"), some (sl "rgb"), none, false, false,
         false⟩))).trademark = some false :=
  (c6_theorem (sl "KH-Gruppe")
    ⟨sl "gruppe", some (sl "center"), some false, some (sl "m"), some false,
     some false, some (sl "black"), some (sl "rgb"), none, false, false, false⟩
    (by decide) (by decide) (by decide) (by decide) (by decide) (by decide)
    (by decide) (by decide) (by decide)).2.2.2

theorem inDisc_dadd (g g2 : Str) (v w : Val) :
    ∀ acc, inDisc g v (dadd g2 w acc) ↔ inDisc g v acc ∨ (g = g2 ∧ v = w) := by
  intro acc
  induction acc with
  | nil =>
    simp only [dadd, inDisc, List.mem_cons, List.not_mem_nil, or_false]
    constructor
    · rintro ⟨pr, hpr, h1, h2⟩
      rw [hpr] at h1 h2
      simp only [List.mem_cons, List.not_mem_nil, or_false] at h2
      exact Or.inr ⟨h1.symm, h2⟩
    · rintro (⟨pr, hpr, _, _⟩ | ⟨rfl, rfl⟩)
      · exact absurd hpr (by simp)
      · exact ⟨(g, [v]), rfl, rfl, List.mem_cons_self v []⟩
  | cons p t ih =>
    obtain ⟨k, vs⟩ := p
    simp only [dadd]
    by_cases hk : k = g2
    · rw [if_pos hk]
      subst hk
      constructor
      · rintro ⟨pr, hpr, h1, h2⟩
        rcases List.mem_cons.mp hpr with rfl | hmem
        · by_cases hv : w ∈ vs
          · rw [if_pos hv] at h2
            exact Or.inl ⟨(k, vs), List.mem_cons_self _ _, h1, h2⟩
          · rw [if_neg hv] at h2
            rcases List.mem_append.mp h2 with h | h
            · exact Or.inl ⟨(k, vs), List.mem_cons_self _ _, h1, h⟩
            · simp only [List.mem_cons, List.not_mem_nil, or_false] at h
              exact Or.inr ⟨h1.symm, h⟩
        · exact Or.inl ⟨pr, List.mem_cons_of_mem _ hmem, h1, h2⟩
      · rintro (⟨pr, hpr, h1, h2⟩ | ⟨rfl, rfl⟩)
        · rcases List.mem_cons.mp hpr with rfl | hmem
          · refine ⟨_, List.mem_cons_self _ _, h1, ?_⟩
            by_cases hv : w ∈ vs
            · rw [if_pos hv]; exact h2
            · rw [if_neg hv]; exact List.mem_append.mpr (Or.inl h2)
          · exact ⟨pr, List.mem_cons_of_mem _ hmem, h1, h2⟩
        · refine ⟨_, List.mem_cons_self _ _, rfl, ?_⟩
          by_cases hv : v ∈ vs
          · rw [if_pos hv]; exact hv
          · rw [if_neg hv]; exact List.mem_append.mpr (Or.inr (List.mem_cons_self v []))
    · rw [if_neg hk]
      constructor
      · rintro ⟨pr, hpr, h1, h2⟩
        rcases List.mem_cons.mp hpr with rfl | hmem
        · exact Or.inl ⟨(k, vs), List.mem_cons_self _ _, h1, h2⟩
        · rcases (ih).mp ⟨pr, hmem, h1, h2⟩ with h | h
          · obtain ⟨pr2, hpr2, h3, h4⟩ := h
            exact Or.inl ⟨pr2, List.mem_cons_of_mem _ hpr2, h3, h4⟩
          · exact Or.inr h
      · rintro (⟨pr, hpr, h1, h2⟩ | h)
        · rcases List.mem_cons.mp hpr with rfl | hmem
          · exact ⟨(k, vs), List.mem_cons_self _ _, h1, h2⟩
          · obtain ⟨pr2, hpr2, h3, h4⟩ := (ih).mpr (Or.inl ⟨pr, hmem, h1, h2⟩)
            exact ⟨pr2, List.mem_cons_of_mem _ hpr2, h3, h4⟩
        · obtain ⟨pr2, hpr2, h3, h4⟩ := (ih).mpr (Or.inr h)
          exact ⟨pr2, List.mem_cons_of_mem _ hpr2, h3, h4⟩

theorem inDisc_foldl_rv (g : Str) (v : Val) :
    ∀ (l : RV) (acc : List (Str × List Val)),
      inDisc g v (l.foldl
        (fun a p => if p.1 = sl "modifier" then a else dadd p.1 p.2 a) acc) ↔
      inDisc g v acc ∨ ((g, v) ∈ l ∧ g ≠ sl "modifier") := by
  intro l
  induction l with
  | nil => intro acc; simp
  | cons p rest ih =>
    intro acc
    rw [List.foldl_cons, ih]
    by_cases hm : p.1 = sl "modifier"
    · rw [if_pos hm]
      constructor
      · rintro (h | h)
        · exact Or.inl h
        · exact Or.inr ⟨List.mem_cons_of_mem p h.1, h.2⟩
      · rintro (h | ⟨hmem, hne⟩)
        · exact Or.inl h
        · rcases List.mem_cons.mp hmem with rfl | hmem2
          · exact absurd hm hne
          · exact Or.inr ⟨hmem2, hne⟩
    · rw [if_neg hm, inDisc_dadd]
      constructor
      · rintro ((h | ⟨rfl, rfl⟩) | h)
        · exact Or.inl h
        · exact Or.inr ⟨List.mem_cons_self _ _, hm⟩
        · exact Or.inr ⟨List.mem_cons_of_mem p h.1, h.2⟩
      · rintro (h | ⟨hmem, hne⟩)
        · exact Or.inl (Or.inl h)
        · rcases List.mem_cons.mp hmem with heq | hmem2
          · exact Or.inl (Or.inr ⟨congrArg Prod.fst heq, congrArg Prod.snd heq⟩)
          · exact Or.inr ⟨hmem2, hne⟩

theorem inDisc_discover (g : Str) (v : Val) :
    ∀ (files : List PFile) (acc : List (Str × List Val)),
      inDisc g v (files.foldl discStep acc) ↔
      inDisc g v acc ∨ ∃ pf ∈ files, (g, v) ∈ pf.rv ∧ g ≠ sl "modifier" := by
  intro files
  induction files with
  | nil => intro acc; simp
  | cons pf rest ih =>
    intro acc
    rw [List.foldl_cons, ih]
    unfold discStep
    rw [inDisc_foldl_rv]
    constructor
    · rintro ((h | h) | ⟨pf2, h2, h3⟩)
      · exact Or.inl h
      · exact Or.inr ⟨pf, List.mem_cons_self _ _, h⟩
      · exact Or.inr ⟨pf2, List.mem_cons_of_mem _ h2, h3⟩
    · rintro (h | ⟨pf2, h2, h3⟩)
      · exact Or.inl (Or.inl h)
      · rcases List.mem_cons.mp h2 with rfl | hmem
        · exact Or.inl (Or.inr h3)
        · exact Or.inr ⟨pf2, hmem, h3⟩

theorem mem_dadd (g : Str) (v : Val) (pr : Str × List Val) :
    ∀ acc, pr ∈ dadd g v acc → pr.1 = g ∨ ∃ pr2 ∈ acc, pr.1 = pr2.1 := by
  intro acc
  induction acc with
  | nil =>
    intro h
    simp only [dadd, List.mem_cons, List.not_mem_nil, or_false] at h
    exact Or.inl (by rw [h])
  | cons p t ih =>
    obtain ⟨k, vs⟩ := p
    intro h
    simp only [dadd] at h
    by_cases hk : k = g
    · rw [if_pos hk] at h
      rcases List.mem_cons.mp h with rfl | hmem
      · exact Or.inl hk
      · exact Or.inr ⟨pr, List.mem_cons_of_mem _ hmem, rfl⟩
    · rw [if_neg hk] at h
      rcases List.mem_cons.mp h with rfl | hmem
      · exact Or.inr ⟨(k, vs), List.mem_cons_self _ _, rfl⟩
      · rcases ih hmem with h1 | ⟨pr2, hpr2, h2⟩
        · exact Or.inl h1
        · exact Or.inr ⟨pr2, List.mem_cons_of_mem _ hpr2, h2⟩

theorem dadd_pairwise (g : Str) (v : Val) :
    ∀ acc, acc.Pairwise (fun a b => a.1 ≠ b.1) →
      (dadd g v acc).Pairwise (fun a b => a.1 ≠ b.1) := by
  intro acc
  induction acc with
  | nil => intro _; simp [dadd]
  | cons p t ih =>
    obtain ⟨k, vs⟩ := p
    intro hp
    rw [List.pairwise_cons] at hp
    simp only [dadd]
    by_cases hk : k = g
    · rw [if_pos hk]
      exact List.pairwise_cons.mpr ⟨hp.1, hp.2⟩
    · rw [if_neg hk]
      refine List.pairwise_cons.mpr ⟨?_, ih hp.2⟩
      intro x hx
      rcases mem_dadd g v x t hx with h1 | ⟨pr2, hpr2, h2⟩
      · rw [h1]; exact hk
      · rw [h2]; exact hp.1 pr2 hpr2

theorem foldl_rv_pairwise :
    ∀ (l : RV) (acc : List (Str × List Val)),
      acc.Pairwise (fun a b => a.1 ≠ b.1) →
      (l.foldl (fun a p => if p.1 = sl "modifier" then a else dadd p.1 p.2 a)
        acc).Pairwise (fun a b => a.1 ≠ b.1) := by
  intro l
  induction l with
  | nil => intro acc h; exact h
  | cons p rest ih =>
    intro acc h
    rw [List.foldl_cons]
    apply ih
    by_cases hm : p.1 = sl "modifier"
    · rw [if_pos hm]; exact h
    · rw [if_neg hm]; exact dadd_pairwise p.1 p.2 acc h

theorem discover_pairwise_aux :
    ∀ (files : List PFile) (acc : List (Str × List Val)),
      acc.Pairwise (fun a b => a.1 ≠ b.1) →
      (files.foldl discStep acc).Pairwise (fun a b => a.1 ≠ b.1) := by
  intro files
  induction files with
  | nil => intro acc h; exact h
  | cons pf rest ih =>
    intro acc h
    rw [List.foldl_cons]
    exact ih _ (foldl_rv_pairwise pf.rv acc h)

theorem discover_pairwise (files : List PFile) :
    (discover files).Pairwise (fun a b => a.1 ≠ b.1) :=
  discover_pairwise_aux files [] (List.Pairwise.nil)

theorem dadd_vals (g : Str) (v : Val) :
    ∀ acc, (∀ pr ∈ acc, pr.2.Nodup ∧ pr.2 ≠ []) →
      ∀ pr ∈ dadd g v acc, pr.2.Nodup ∧ pr.2 ≠ [] := by
  intro acc
  induction acc with
  | nil =>
    intro _ pr hpr
    simp only [dadd, List.mem_cons, List.not_mem_nil, or_false] at hpr
    rw [hpr]
    exact ⟨List.nodup_singleton v, by simp⟩
  | cons p t ih =>
    obtain ⟨k, vs⟩ := p
    intro h pr hpr
    simp only [dadd] at hpr
    have hh := h (k, vs) (List.mem_cons_self _ _)
    by_cases hk : k = g
    · rw [if_pos hk] at hpr
      rcases List.mem_cons.mp hpr with rfl | hmem
      · by_cases hv : v ∈ vs
        · rw [if_pos hv]
          exact hh
        · rw [if_neg hv]
          refine ⟨List.nodup_append.mpr ⟨hh.1, List.nodup_singleton v, ?_⟩, by simp⟩
          intro a ha hb
          rw [List.mem_singleton] at hb
          rw [hb] at ha
          exact hv ha
      · exact h pr (List.mem_cons_of_mem _ hmem)
    · rw [if_neg hk] at hpr
      rcases List.mem_cons.mp hpr with rfl | hmem
      · exact hh
      · exact ih (fun q hq => h q (List.mem_cons_of_mem _ hq)) pr hmem

theorem foldl_rv_vals :
    ∀ (l : RV) (acc : List (Str × List Val)),
      (∀ pr ∈ acc, pr.2.Nodup ∧ pr.2 ≠ []) →
      ∀ pr ∈ l.foldl (fun a p => if p.1 = sl "modifier" then a else dadd p.1 p.2 a) acc,
        pr.2.Nodup ∧ pr.2 ≠ [] := by
  intro l
  induction l with
  | nil => intro acc h; exact h
  | cons p rest ih =>
    intro acc h
    rw [List.foldl_cons]
    apply ih
    by_cases hm : p.1 = sl "modifier"
    · rw [if_pos hm]; exact h
    · rw [if_neg hm]; exact dadd_vals p.1 p.2 acc h

theorem discover_vals_aux :
    ∀ (files : List PFile) (acc : List (Str × List Val)),
      (∀ pr ∈ acc, pr.2.Nodup ∧ pr.2 ≠ []) →
      ∀ pr ∈ files.foldl discStep acc, pr.2.Nodup ∧ pr.2 ≠ [] := by
  intro files
  induction files with
  | nil => intro acc h; exact h
  | cons pf rest ih =>
    intro acc h
    rw [List.foldl_cons]
    exact ih _ (foldl_rv_vals pf.rv acc h)

theorem discover_vals (files : List PFile) :
    ∀ pr ∈ discover files, pr.2.Nodup ∧ pr.2 ≠ [] :=
  discover_vals_aux files [] (fun pr hpr => absurd hpr (List.not_mem_nil pr))

theorem pairwise_ne_unique {β : Type} :
    ∀ (l : List (Str × β)), l.Pairwise (fun a b => a.1 ≠ b.1) →
      ∀ a ∈ l, ∀ b ∈ l, a.1 = b.1 → a = b := by
  intro l
  induction l with
  | nil => intro _ a ha; exact absurd ha (List.not_mem_nil a)
  | cons p t ih =>
    intro hp a ha b hb heq
    rw [List.pairwise_cons] at hp
    rcases List.mem_cons.mp ha with rfl | ha2
    · rcases List.mem_cons.mp hb with rfl | hb2
      · rfl
      · exact absurd heq (hp.1 b hb2)
    · rcases List.mem_cons.mp hb with rfl | hb2
      · exact absurd heq.symm (hp.1 a ha2)
      · exact ih hp.2 a ha2 b hb2 heq

theorem mem_vals_iff_inDisc (acc : List (Str × List Val))
    (hpw : acc.Pairwise (fun a b => a.1 ≠ b.1)) (g : Str) (vs : List Val)
    (hmem : (g, vs) ∈ acc) (v : Val) :
    v ∈ vs ↔ inDisc g v acc := by
  constructor
  · intro hv
    exact ⟨(g, vs), hmem, rfl, hv⟩
  · rintro ⟨pr, hpr, h1, h2⟩
    have he : pr = (g, vs) :=
      pairwise_ne_unique acc hpw pr hpr (g, vs) hmem (by rw [h1])
    rw [he] at h2
    exact h2

theorem inDisc_discover_iff (g : Str) (v : Val) (files : List PFile) :
    inDisc g v (discover files) ↔
    ∃ pf ∈ files, (g, v) ∈ pf.rv ∧ g ≠ sl "modifier" := by
  unfold discover
  rw [inDisc_discover g v files []]
  simp [inDisc]

theorem sortVals_sorted (vs : List Val) :
    (List.insertionSort strFormLe vs).Pairwise (fun a b => strForm a ≤ strForm b) := by
  haveI : IsTotal Val strFormLe := ⟨fun a b => le_total (strForm a) (strForm b)⟩
  haveI : IsTrans Val strFormLe := ⟨fun a b c hab hbc => le_trans hab hbc⟩
  exact List.sorted_insertionSort strFormLe vs

theorem sortedVals_eq (files files' : List PFile)
    (hperm : files.Perm files')
    (hinj : ∀ pf ∈ files, ∀ pr ∈ pf.rv, ∀ pf2 ∈ files, ∀ pr2 ∈ pf2.rv,
        pr.1 = pr2.1 → strForm pr.2 = strForm pr2.2 → pr.2 = pr2.2)
    (g : Str) (vs1 vs2 : List Val)
    (h1 : (g, vs1) ∈ discover files) (h2 : (g, vs2) ∈ discover files') :
    List.insertionSort strFormLe vs1 = List.insertionSort strFormLe vs2 := by
  have hm1 : ∀ v, v ∈ vs1 ↔ inDisc g v (discover files) :=
    fun v => mem_vals_iff_inDisc _ (discover_pairwise files) g vs1 h1 v
  have hm2 : ∀ v, v ∈ vs2 ↔ inDisc g v (discover files') :=
    fun v => mem_vals_iff_inDisc _ (discover_pairwise files') g vs2 h2 v
  have hmd : ∀ v : Val, (∃ pf ∈ files, (g, v) ∈ pf.rv ∧ g ≠ sl "modifier") ↔
      (∃ pf ∈ files', (g, v) ∈ pf.rv ∧ g ≠ sl "modifier") := by
    intro v
    constructor <;> rintro ⟨pf, hpf, h3⟩
    · exact ⟨pf, hperm.mem_iff.mp hpf, h3⟩
    · exact ⟨pf, hperm.mem_iff.mpr hpf, h3⟩
  have hmm : ∀ v, v ∈ vs1 ↔ v ∈ vs2 := fun v => by
    rw [hm1, hm2, inDisc_discover_iff, inDisc_discover_iff, hmd]
  have hnd1 : vs1.Nodup := (discover_vals files _ h1).1
  have hnd2 : vs2.Nodup := (discover_vals files' _ h2).1
  have hp : vs1.Perm vs2 :=
    (hnd1.subperm (fun v hv => (hmm v).mp hv)).antisymm
      (hnd2.subperm (fun v hv => (hmm v).mpr hv))
  have hinj1 : ∀ v ∈ vs1, ∀ w ∈ vs1, strForm v = strForm w → v = w := by
    intro v hv w hw hs
    obtain ⟨pf, hpf, hpr, _⟩ := (inDisc_discover_iff g v files).mp ((hm1 v).mp hv)
    obtain ⟨pf2, hpf2, hpr2, _⟩ := (inDisc_discover_iff g w files).mp ((hm1 w).mp hw)
    exact hinj pf hpf (g, v) hpr pf2 hpf2 (g, w) hpr2 rfl hs
  have hpne : vs1.Pairwise (fun a b => strForm a ≠ strForm b) :=
    List.Pairwise.imp_of_mem (fun ha hb hne hs => hne (hinj1 _ ha _ hb hs)) hnd1
  apply eq_of_perm_of_sorted_key strForm
  · exact (List.perm_insertionSort _ _).trans
      (hp.trans (List.perm_insertionSort _ _).symm)
  · exact ((List.perm_insertionSort strFormLe vs1).pairwise_iff
      (fun h => h.symm)).mpr hpne
  · exact sortVals_sorted vs1
  · exact sortVals_sorted vs2

theorem manifest_mem_core (fs : List PFile) (x : Str × List Val) :
    x ∈ ((List.insertionSort gpLe (discover fs)).filter
          (fun p => p.1 ≠ sl "modifier")).map
        (fun p => (p.1, List.insertionSort strFormLe p.2)) ↔
    ∃ vs, (x.1, vs) ∈ discover fs ∧ x.1 ≠ sl "modifier" ∧
      x.2 = List.insertionSort strFormLe vs := by
  rw [List.mem_map]
  constructor
  · rintro ⟨q, hq, he⟩
    rw [List.mem_filter] at hq
    have hq1 : q ∈ discover fs := (List.perm_insertionSort gpLe _).mem_iff.mp hq.1
    refine ⟨q.2, ?_, ?_, ?_⟩
    · rw [← he]
      exact hq1
    · rw [← he]
      exact of_decide_eq_true hq.2
    · rw [← he]
  · rintro ⟨vs, hv, hne, hx2⟩
    refine ⟨(x.1, vs), ?_, ?_⟩
    · rw [List.mem_filter]
      exact ⟨(List.perm_insertionSort gpLe _).mem_iff.mpr hv, decide_eq_true hne⟩
    · obtain ⟨x1, x2⟩ := x
      simp only [] at hx2 ⊢
      rw [hx2]

theorem manifest_sorted_core (fs : List PFile) :
    (((List.insertionSort gpLe (discover fs)).filter
        (fun p => p.1 ≠ sl "modifier")).map
      (fun p => (p.1, List.insertionSort strFormLe p.2))).Pairwise
      (fun a b => a.1 ≠ b.1) ∧
    (((List.insertionSort gpLe (discover fs)).filter
        (fun p => p.1 ≠ sl "modifier")).map
      (fun p => (p.1, List.insertionSort strFormLe p.2))).Pairwise
      (fun a b => a.1 ≤ b.1) := by
  constructor
  · rw [List.pairwise_map]
    apply List.Pairwise.filter
    exact ((List.perm_insertionSort gpLe _).pairwise_iff (fun h => h.symm)).mpr
      (discover_pairwise fs)
  · rw [List.pairwise_map]
    apply List.Pairwise.filter
    haveI : IsTotal (Str × List Val) gpLe := ⟨fun a b => le_total a.1 b.1⟩
    haveI : IsTrans (Str × List Val) gpLe := ⟨fun a b c hab hbc => le_trans hab hbc⟩
    exact List.sorted_insertionSort gpLe _

theorem manifest_lift (fs : List PFile) :
    manifestOf fs =
    (((List.insertionSort gpLe (discover fs)).filter
        (fun p => p.1 ≠ sl "modifier")).map
      (fun p => (p.1, List.insertionSort strFormLe p.2))).map
      (fun r => (r.1,
        MEntry.mk (pyTitle (r.1.map (fun c => if c = '_' then ' ' else c)))
          (r.2.map (fun v => (v, nameFor r.1 v))))) := by
  unfold manifestOf
  rw [List.map_map]
  rfl

theorem manifest_perm_core (files files' : List PFile)
    (hperm : files.Perm files')
    (hinj : ∀ pf ∈ files, ∀ pr ∈ pf.rv, ∀ pf2 ∈ files, ∀ pr2 ∈ pf2.rv,
        pr.1 = pr2.1 → strForm pr.2 = strForm pr2.2 → pr.2 = pr2.2) :
    manifestOf files = manifestOf files' := by
  have hinj2 : ∀ pf ∈ files', ∀ pr ∈ pf.rv, ∀ pf2 ∈ files', ∀ pr2 ∈ pf2.rv,
      pr.1 = pr2.1 → strForm pr.2 = strForm pr2.2 → pr.2 = pr2.2 :=
    fun pf hpf pr hpr pf2 hpf2 pr2 hpr2 =>
      hinj pf (hperm.mem_iff.mpr hpf) pr hpr pf2 (hperm.mem_iff.mpr hpf2) pr2 hpr2
  have hsub1 : ((List.insertionSort gpLe (discover files)).filter
        (fun p => p.1 ≠ sl "modifier")).map
      (fun p => (p.1, List.insertionSort strFormLe p.2)) ⊆
      ((List.insertionSort gpLe (discover files')).filter
        (fun p => p.1 ≠ sl "modifier")).map
      (fun p => (p.1, List.insertionSort strFormLe p.2)) := by
    intro x hx
    obtain ⟨vs1, h1, hne, hx2⟩ := (manifest_mem_core files x).mp hx
    obtain ⟨v0, hv0⟩ := List.exists_mem_of_ne_nil vs1 (discover_vals files _ h1).2
    have hd2 : inDisc x.1 v0 (discover files') := by
      rw [inDisc_discover_iff]
      obtain ⟨pf, hpf, h3⟩ := (inDisc_discover_iff x.1 v0 files).mp
        ((mem_vals_iff_inDisc _ (discover_pairwise files) x.1 vs1 h1 v0).mp hv0)
      exact ⟨pf, hperm.mem_iff.mp hpf, h3⟩
    obtain ⟨pr, hpr, hprk, _⟩ := hd2
    have hpr2 : (x.1, pr.2) ∈ discover files' := by
      rw [← hprk]
      exact hpr
    rw [manifest_mem_core files' x]
    refine ⟨pr.2, hpr2, hne, ?_⟩
    rw [hx2]
    exact sortedVals_eq files files' hperm hinj x.1 vs1 pr.2 h1 hpr2
  have hsub2 : ((List.insertionSort gpLe (discover files')).filter
        (fun p => p.1 ≠ sl "modifier")).map
      (fun p => (p.1, List.insertionSort strFormLe p.2)) ⊆
      ((List.insertionSort gpLe (discover files)).filter
        (fun p => p.1 ≠ sl "modifier")).map
      (fun p => (p.1, List.insertionSort strFormLe p.2)) := by
    intro x hx
    obtain ⟨vs1, h1, hne, hx2⟩ := (manifest_mem_core files' x).mp hx
    obtain ⟨v0, hv0⟩ := List.exists_mem_of_ne_nil vs1 (discover_vals files' _ h1).2
    have hd2 : inDisc x.1 v0 (discover files) := by
      rw [inDisc_discover_iff]
      obtain ⟨pf, hpf, h3⟩ := (inDisc_discover_iff x.1 v0 files').mp
        ((mem_vals_iff_inDisc _ (discover_pairwise files') x.1 vs1 h1 v0).mp hv0)
      exact ⟨pf, hperm.mem_iff.mpr hpf, h3⟩
    obtain ⟨pr, hpr, hprk, _⟩ := hd2
    have hpr2 : (x.1, pr.2) ∈ discover files := by
      rw [← hprk]
      exact hpr
    rw [manifest_mem_core files x]
    refine ⟨pr.2, hpr2, hne, ?_⟩
    rw [hx2]
    exact (sortedVals_eq files files' hperm hinj x.1 pr.2 vs1 hpr2 h1).symm
  have hndA : (((List.insertionSort gpLe (discover files)).filter
        (fun p => p.1 ≠ sl "modifier")).map
      (fun p => (p.1, List.insertionSort strFormLe p.2))).Nodup :=
    List.Pairwise.imp
      (fun h => fun e => h (congrArg Prod.fst e)) (manifest_sorted_core files).1
  have hndB : (((List.insertionSort gpLe (discover files')).filter
        (fun p => p.1 ≠ sl "modifier")).map
      (fun p => (p.1, List.insertionSort strFormLe p.2))).Nodup :=
    List.Pairwise.imp
      (fun h => fun e => h (congrArg Prod.fst e)) (manifest_sorted_core files').1
  have hAB := (hndA.subperm hsub1).antisymm (hndB.subperm hsub2)
  have hABeq := eq_of_perm_of_sorted_key (fun p : Str × List Val => p.1) _ _ hAB
    (manifest_sorted_core files).1 (manifest_sorted_core files).2
    (manifest_sorted_core files').2
  rw [manifest_lift files, manifest_lift files', hABeq]

/-- C8: the Manifest excludes the internal `modifier` group entirely; it
is complete — every non-`modifier` attribute `(group, value)` of an
accepted record yields a manifest entry for that group whose option list
contains that value — and exact — every option value of a group was
observed in some record; for every group present, the option list holds
each distinct value exactly once, sorted by the value's string form, and
every option's display name is the vocabulary lookup result with a total
raw-string fallback (the lookup never fails); and the manifest is
identical for any two input orders of the same accepted-record set (given
that distinct values in one group never share a string form, which holds
for all vocabulary values). -/
theorem c8_theorem :
    (∀ (files : List PFile), ∀ pr ∈ manifestOf files, pr.1 ≠ sl "modifier") ∧
    (∀ (files : List PFile), ∀ pf ∈ files, ∀ pr ∈ pf.rv, pr.1 ≠ sl "modifier" →
      ∃ e ∈ manifestOf files, e.1 = pr.1 ∧ ∃ o ∈ e.2.options, o.1 = pr.2) ∧
    (∀ (files : List PFile), ∀ e ∈ manifestOf files, ∀ o ∈ e.2.options,
      ∃ pf ∈ files, (e.1, o.1) ∈ pf.rv) ∧
    (∀ (files : List PFile), ∀ pr ∈ manifestOf files,
      (pr.2.options.map Prod.fst).Pairwise (fun x y => strForm x ≤ strForm y) ∧
      (pr.2.options.map Prod.fst).Nodup ∧
      ∀ o ∈ pr.2.options, o.2 = nameFor pr.1 o.1) ∧
    (∀ (g : Str) (v : Val),
      allDefs.find? (fun e => e.2.group = g ∧ e.2.value.getD (.strV e.1) = v) = none →
      nameFor g v = strForm v) ∧
    (∀ files files' : List PFile, files.Perm files' →
      (∀ pf ∈ files, ∀ pr ∈ pf.rv, ∀ pf2 ∈ files, ∀ pr2 ∈ pf2.rv,
        pr.1 = pr2.1 → strForm pr.2 = strForm pr2.2 → pr.2 = pr2.2) →
      manifestOf files = manifestOf files') := by
  refine ⟨?_, ?_, ?_, ?_, ?_, manifest_perm_core⟩
  · intro files pr hpr
    rw [manifest_lift files] at hpr
    rcases List.mem_map.mp hpr with ⟨r, hr, rfl⟩
    obtain ⟨vs, _, hne, _⟩ := (manifest_mem_core files r).mp hr
    exact hne
  · intro files pf hpf pr hpr hne
    obtain ⟨g, v⟩ := pr
    have hd : inDisc g v (discover files) :=
      (inDisc_discover_iff g v files).mpr ⟨pf, hpf, hpr, hne⟩
    obtain ⟨pr2, hpr2, hk, hv⟩ := hd
    have hpr2' : (g, pr2.2) ∈ discover files := by
      rw [← hk]
      exact hpr2
    have hxA : ((g, List.insertionSort strFormLe pr2.2) : Str × List Val) ∈
        ((List.insertionSort gpLe (discover files)).filter
          (fun p => p.1 ≠ sl "modifier")).map
        (fun p => (p.1, List.insertionSort strFormLe p.2)) :=
      (manifest_mem_core files (g, List.insertionSort strFormLe pr2.2)).mpr
        ⟨pr2.2, hpr2', hne, rfl⟩
    rw [manifest_lift files]
    refine ⟨_, List.mem_map_of_mem _ hxA, rfl, ?_⟩
    have hvs : v ∈ List.insertionSort strFormLe pr2.2 :=
      (List.perm_insertionSort strFormLe pr2.2).mem_iff.mpr hv
    exact ⟨(v, nameFor g v), List.mem_map_of_mem _ hvs, rfl⟩
  · intro files e he o ho
    rw [manifest_lift files] at he
    rcases List.mem_map.mp he with ⟨r, hr, rfl⟩
    obtain ⟨vs, hvs, _, hr2⟩ := (manifest_mem_core files r).mp hr
    rcases List.mem_map.mp ho with ⟨v, hv, rfl⟩
    rw [hr2] at hv
    have hv2 : v ∈ vs := (List.perm_insertionSort strFormLe vs).mem_iff.mp hv
    have hd : inDisc r.1 v (discover files) :=
      (mem_vals_iff_inDisc _ (discover_pairwise files) r.1 vs hvs v).mp hv2
    obtain ⟨pf, hpf, hprv, _⟩ := (inDisc_discover_iff r.1 v files).mp hd
    exact ⟨pf, hpf, hprv⟩
  · intro files pr hpr
    rw [manifest_lift files] at hpr
    rcases List.mem_map.mp hpr with ⟨r, hr, rfl⟩
    obtain ⟨vs, hvs, _, hr2⟩ := (manifest_mem_core files r).mp hr
    have hopts : ((MEntry.mk
        (pyTitle (r.1.map (fun c => if c = '_' then ' ' else c)))
        (r.2.map (fun v => (v, nameFor r.1 v)))).options.map Prod.fst) = r.2 := by
      simp only [List.map_map]
      exact List.map_id r.2
    refine ⟨?_, ?_, ?_⟩
    · rw [hopts, hr2]
      exact sortVals_sorted vs
    · rw [hopts, hr2]
      exact ((List.perm_insertionSort strFormLe vs).nodup_iff).mpr
        (discover_vals files _ hvs).1
    · intro o ho
      rcases List.mem_map.mp ho with ⟨v, _, rfl⟩
      rfl
  · intro g v hfind
    unfold nameFor
    rw [hfind]

/-- C8, witness: a concrete record's color value shows up in the manifest,
and permuting a concrete two-record input set leaves the manifest
unchanged. -/
theorem c8_witness :
    (∃ e ∈ manifestOf [⟨sl "a.svg", [(sl "color", .strV (sl "black"))]⟩],
      e.1 = sl "color" ∧ ∃ o ∈ e.2.options, o.1 = .strV (sl "black")) ∧
    manifestOf [⟨sl "a.svg", [(sl "color", .strV (sl "black"))]⟩,
                ⟨sl "b.png", [(sl "color", .strV (sl "white")),
                              (sl "bar", .boolV false)]⟩] =
    manifestOf [⟨sl "b.png", [(sl "color", .strV (sl "white")),
                              (sl "bar", .boolV false)]⟩,
                ⟨sl "a.svg", [(sl "color", .strV (sl "black"))]⟩] :=
  ⟨c8_theorem.2.1 [⟨sl "a.svg", [(sl "color", .strV (sl "black"))]⟩]
      ⟨sl "a.svg", [(sl "color", .strV (sl "black"))]⟩ (by decide)
      (sl "color", .strV (sl "black")) (by decide) (by decide),
    c8_theorem.2.2.2.2.2 _ _ (by decide) (by decide)⟩
